import Mathlib

/-! CXXGraph: the graph model, the adjacency view, Dijkstra and the slicing of the
partitioner.

A shallow embedding of `include/Graph.hpp` and of
`include/Partitioning/Partitioner.hpp`.

Modelling conventions.

* A `const Node<T>*` and a `const Edge<T>*` are addresses (`NodePtr`, `EdgePtr`,
  natural numbers).  The graph never owns the edge objects, so every operation
  that dereferences an edge pointer takes the store `mem : EdgePtr → Edge` as an
  explicit argument.
* `std::set<const Edge<T>*>` is a list of addresses in the container's
  iteration order (strictly ascending); `std::map<const Node<T>*, V>` is an
  association list in key order.
* A `double` value is the rational number it stands for; `INF_DOUBLE` is the exact
  value of `std::numeric_limits<double>::max()`.  Sums are exact, except that the
  addition of `dijkstra` is also given with the rounding addition of the machine as a
  parameter (`dijkstraWith`).
* A loop that may not terminate takes a fuel argument and answers `none` when
  the fuel runs out; a C++ exception is the `Outcome.threw` outcome.
-/

namespace CXXGRAPH

/-! ## Constants -/

def ERR_NO_DIR_OR_UNDIR_EDGE : String := "Edge are neither Directed neither Undirected"

def ERR_NO_WEIGHTED_EDGE : String := "Edge are not Weighted"

def ERR_DIJ_TARGET_NODE_NOT_REACHABLE : String := "Target Node not Reachable"

/-- The largest finite `double`, `(2^53 - 1) * 2^971`. -/
def INF_DOUBLE : ℚ := (2 ^ 53 - 1) * 2 ^ 971

/-- What `std::map::at` throws on a missing key. -/
def OUT_OF_RANGE : String := "std::out_of_range"

/-! ## Nodes and edges -/

abbrev NodePtr := Nat

abbrev EdgePtr := Nat

/-- The class `Node<T>`: an id and a payload, both fixed by the constructor. -/
structure Node (T : Type) where
  id : Nat
  data : T

namespace Node

variable {T : Type}

def getId (n : Node T) : Nat := n.id

def getData (n : Node T) : T := n.data

/-- The member `Node<T>::operator==`.  The payloads are compared with the `operator==`
of `T`, taken to be equality on `T`. -/
def opEq [DecidableEq T] (a b : Node T) : Bool :=
  decide (a.id = b.id) && decide (a.data = b.data)

/-- The member `Node<T>::operator<`. -/
def opLt (a b : Node T) : Bool := decide (a.id < b.id)

end Node

/-- The edge class hierarchy as a closed sum: the base `Edge<T>` and its four
concrete subclasses.  Every object carries the `id` and `nodePair` members of the
base class; the two weighted classes also carry the `weight` of `Weighted`. -/
inductive Edge where
  | base (id : Nat) (nodePair : NodePtr × NodePtr)
  | DirectedEdge (id : Nat) (nodePair : NodePtr × NodePtr)
  | UndirectedEdge (id : Nat) (nodePair : NodePtr × NodePtr)
  | DirectedWeightedEdge (id : Nat) (nodePair : NodePtr × NodePtr) (weight : ℚ)
  | UndirectedWeightedEdge (id : Nat) (nodePair : NodePtr × NodePtr) (weight : ℚ)
deriving DecidableEq

namespace Edge

def getId : Edge → Nat
  | base id _ => id
  | DirectedEdge id _ => id
  | UndirectedEdge id _ => id
  | DirectedWeightedEdge id _ _ => id
  | UndirectedWeightedEdge id _ _ => id

def getNodePair : Edge → NodePtr × NodePtr
  | base _ np => np
  | DirectedEdge _ np => np
  | UndirectedEdge _ np => np
  | DirectedWeightedEdge _ np _ => np
  | UndirectedWeightedEdge _ np _ => np

/-- Virtual `isDirected()`: `std::nullopt` on the base class. -/
def isDirected : Edge → Option Bool
  | base _ _ => none
  | DirectedEdge _ _ => some true
  | UndirectedEdge _ _ => some false
  | DirectedWeightedEdge _ _ _ => some true
  | UndirectedWeightedEdge _ _ _ => some false

/-- Virtual `isWeighted()`: `std::nullopt` on the base class. -/
def isWeighted : Edge → Option Bool
  | base _ _ => none
  | DirectedEdge _ _ => some false
  | UndirectedEdge _ _ => some false
  | DirectedWeightedEdge _ _ _ => some true
  | UndirectedWeightedEdge _ _ _ => some true

/-- The member `DirectedEdge<T>::getFrom`, as an address. -/
def getFrom (e : Edge) : NodePtr := e.getNodePair.1

/-- The member `DirectedEdge<T>::getTo`, as an address. -/
def getTo (e : Edge) : NodePtr := e.getNodePair.2

/-- The member `UndirectedEdge<T>::getNode1`, as an address. -/
def getNode1 (e : Edge) : NodePtr := e.getNodePair.1

/-- The member `UndirectedEdge<T>::getNode2`, as an address. -/
def getNode2 (e : Edge) : NodePtr := e.getNodePair.2

/-- The member `Weighted::getWeight` of the two weighted classes.  The other
classes have no `Weighted` sub-object; the source reads the weight only behind an
`isWeighted()` test, so the value given for them here is never consulted. -/
def getWeight : Edge → ℚ
  | DirectedWeightedEdge _ _ w => w
  | UndirectedWeightedEdge _ _ w => w
  | _ => 0

/-- The member `Edge<T>::operator==`; no subclass overrides it.  The node pairs are
compared as pairs of addresses. -/
def opEq (a b : Edge) : Bool :=
  decide (a.getId = b.getId) && decide (a.getNodePair = b.getNodePair)

/-- The member `Edge<T>::operator<`. -/
def opLt (a b : Edge) : Bool := decide (a.getId < b.getId)

/-! ### Conversions between the edge classes

Each function is one converting constructor or conversion operator of `Graph.hpp`.
Its argument stands for the object the C++ parameter (or `this`) refers to; C++ admits
there only objects of the parameter's class or of a class derived from it. -/

/-- The default constructor `Weighted::Weighted()`: `weight = 0.0`. -/
def Weighted_default : ℚ := 0

/-- The constructor `DirectedEdge(const Edge<T>& edge)`: it delegates to
`DirectedEdge(edge.getId(), *(edge.getNodePair().first), *(edge.getNodePair().second))`,
which stores the addresses of the two nodes. -/
def DirectedEdge_from_Edge (edge : Edge) : Edge :=
  .DirectedEdge edge.getId (edge.getNodePair.1, edge.getNodePair.2)

/-- The constructor `UndirectedEdge(const Edge<T>& edge)`. -/
def UndirectedEdge_from_Edge (edge : Edge) : Edge :=
  .UndirectedEdge edge.getId (edge.getNodePair.1, edge.getNodePair.2)

/-- The implicitly declared copy constructor of `DirectedEdge<T>`, which copies the
`id` and `nodePair` members; applied to a `DirectedWeightedEdge` it is the slicing
conversion to the unweighted class. -/
def DirectedEdge_copy (edge : Edge) : Edge :=
  .DirectedEdge edge.getId edge.getNodePair

/-- The implicitly declared copy constructor of `UndirectedEdge<T>`. -/
def UndirectedEdge_copy (edge : Edge) : Edge :=
  .UndirectedEdge edge.getId edge.getNodePair

/-- The operator `DirectedEdge<T>::operator UndirectedEdge<T>()`. -/
def DirectedEdge_to_UndirectedEdge (e : Edge) : Edge :=
  .UndirectedEdge e.getId e.getNodePair

/-- The operator `UndirectedEdge<T>::operator DirectedEdge<T>()`. -/
def UndirectedEdge_to_DirectedEdge (e : Edge) : Edge :=
  .DirectedEdge e.getId e.getNodePair

/-- The constructor `DirectedWeightedEdge(const DirectedEdge<T>& edge, const double weight)`,
with initialisers `DirectedEdge<T>(edge), Weighted(weight)`. -/
def DirectedWeightedEdge_from_DirectedEdge_weight (edge : Edge) (weight : ℚ) : Edge :=
  .DirectedWeightedEdge (DirectedEdge_copy edge).getId (DirectedEdge_copy edge).getNodePair weight

/-- The constructor `DirectedWeightedEdge(const Edge<T>& edge, const double weight)`. -/
def DirectedWeightedEdge_from_Edge_weight (edge : Edge) (weight : ℚ) : Edge :=
  .DirectedWeightedEdge (DirectedEdge_from_Edge edge).getId
    (DirectedEdge_from_Edge edge).getNodePair weight

/-- The constructor `DirectedWeightedEdge(const DirectedEdge<T>& edge)`, with
initialisers `DirectedEdge<T>(edge), Weighted()`. -/
def DirectedWeightedEdge_from_DirectedEdge (edge : Edge) : Edge :=
  .DirectedWeightedEdge (DirectedEdge_copy edge).getId (DirectedEdge_copy edge).getNodePair
    Weighted_default

/-- The constructor `DirectedWeightedEdge(const Edge<T>& edge)`. -/
def DirectedWeightedEdge_from_Edge (edge : Edge) : Edge :=
  .DirectedWeightedEdge (DirectedEdge_from_Edge edge).getId
    (DirectedEdge_from_Edge edge).getNodePair Weighted_default

/-- The constructor `DirectedWeightedEdge(const UndirectedWeightedEdge<T>& edge)`, with
initialisers `DirectedEdge<T>(edge), Weighted(edge.getWeight())`; the base is built by
`DirectedEdge(const Edge<T>&)`. -/
def DirectedWeightedEdge_from_UndirectedWeightedEdge (edge : Edge) : Edge :=
  .DirectedWeightedEdge (DirectedEdge_from_Edge edge).getId
    (DirectedEdge_from_Edge edge).getNodePair edge.getWeight

/-- The operator `DirectedWeightedEdge<T>::operator UndirectedWeightedEdge<T>()`. -/
def DirectedWeightedEdge_to_UndirectedWeightedEdge (e : Edge) : Edge :=
  .UndirectedWeightedEdge e.getId e.getNodePair e.getWeight

/-- The constructor
`UndirectedWeightedEdge(const UndirectedEdge<T>& edge, const double weight)`. -/
def UndirectedWeightedEdge_from_UndirectedEdge_weight (edge : Edge) (weight : ℚ) : Edge :=
  .UndirectedWeightedEdge (UndirectedEdge_copy edge).getId
    (UndirectedEdge_copy edge).getNodePair weight

/-- The constructor `UndirectedWeightedEdge(const Edge<T>& edge, const double weight)`. -/
def UndirectedWeightedEdge_from_Edge_weight (edge : Edge) (weight : ℚ) : Edge :=
  .UndirectedWeightedEdge (UndirectedEdge_from_Edge edge).getId
    (UndirectedEdge_from_Edge edge).getNodePair weight

/-- The constructor `UndirectedWeightedEdge(const UndirectedEdge<T>& edge)`. -/
def UndirectedWeightedEdge_from_UndirectedEdge (edge : Edge) : Edge :=
  .UndirectedWeightedEdge (UndirectedEdge_copy edge).getId
    (UndirectedEdge_copy edge).getNodePair Weighted_default

/-- The constructor `UndirectedWeightedEdge(const Edge<T>& edge)`. -/
def UndirectedWeightedEdge_from_Edge (edge : Edge) : Edge :=
  .UndirectedWeightedEdge (UndirectedEdge_from_Edge edge).getId
    (UndirectedEdge_from_Edge edge).getNodePair Weighted_default

/-- The constructor `UndirectedWeightedEdge(const DirectedWeightedEdge<T>& edge)`, with
initialisers `UndirectedEdge<T>(edge), Weighted(edge.getWeight())`. -/
def UndirectedWeightedEdge_from_DirectedWeightedEdge (edge : Edge) : Edge :=
  .UndirectedWeightedEdge (UndirectedEdge_from_Edge edge).getId
    (UndirectedEdge_from_Edge edge).getNodePair edge.getWeight

/-- The operator `UndirectedWeightedEdge<T>::operator DirectedWeightedEdge<T>()`. -/
def UndirectedWeightedEdge_to_DirectedWeightedEdge (e : Edge) : Edge :=
  .DirectedWeightedEdge e.getId e.getNodePair e.getWeight

/-- A conversion keeps the id and the ordered node pair of its source, and its result
reports the given `isDirected()` and `isWeighted()` values. -/
def KeepsIdentity (conv : Edge → Edge) (directed weighted : Bool) : Prop :=
  ∀ e : Edge, (conv e).getId = e.getId ∧ (conv e).getNodePair = e.getNodePair ∧
    (conv e).isDirected = some directed ∧ (conv e).isWeighted = some weighted

end Edge

/-! ## Containers -/

/-- The member `insert` of a `std::set` of addresses, on the ascending list of the
set's elements. -/
def setInsert : List Nat → Nat → List Nat
  | [], x => [x]
  | y :: ys, x =>
    if x < y then x :: y :: ys
    else if x = y then y :: ys
    else y :: setInsert ys x

/-- A `std::map<const Node<T>*, V>`: its entries, in key order. -/
abbrev StdMap (V : Type) := List (NodePtr × V)

namespace StdMap

variable {V : Type}

/-- The key-order invariant of `std::map`. -/
def Ordered (m : StdMap V) : Prop := (m.map Prod.fst).Pairwise (· < ·)

/-- Lookup without insertion (`find`, and `at` when the answer is `some`). -/
def find : StdMap V → NodePtr → Option V
  | [], _ => none
  | (k, v) :: rest, key => if key = k then some v else find rest key

/-- The effect of `f (m[key])` where `m[key]` is `std::map::operator[]`: the entry
is value-initialised to `dflt` when the key is missing, then `f` is applied to the
stored value in place. -/
def update (dflt : V) (f : V → V) : StdMap V → NodePtr → StdMap V
  | [], key => [(key, f dflt)]
  | (k, v) :: rest, key =>
    if key < k then (key, f dflt) :: (k, v) :: rest
    else if key = k then (k, f v) :: rest
    else (k, v) :: update dflt f rest key

/-- Reading `m[key]`: the value read, and the map after the read (which has gained
a value-initialised entry when the key was missing). -/
def index (dflt : V) (m : StdMap V) (key : NodePtr) : V × StdMap V :=
  let m1 := update dflt id m key
  ((find m1 key).getD dflt, m1)

/-- The assignment `m[key] = v`. -/
def assign (dflt : V) (m : StdMap V) (key : NodePtr) (v : V) : StdMap V :=
  update dflt (fun _ => v) m key

/-- The value a read of `m[key]` gives: the stored value, or the default with which
the entry is created. -/
def read (dflt : V) (m : StdMap V) (key : NodePtr) : V := (find m key).getD dflt

/-- The sum of the stored values. -/
def valueSum [Add V] [Zero V] (m : StdMap V) : V := (m.map Prod.snd).sum

end StdMap

/-- The type `AdjacencyMatrix<T>`: node address to the vector of (neighbour, edge)
pairs. -/
abbrev AdjacencyMatrix := StdMap (List (NodePtr × EdgePtr))

/-- The min-heap of `dijkstra`, kept as the ascending list of its elements. -/
abbrev PriorityQueue := List (ℚ × NodePtr)

/-- The `operator<` of `std::pair<double, const Node<T>*>`. -/
def pairLt (a b : ℚ × NodePtr) : Bool :=
  decide (a.1 < b.1) || (decide (a.1 = b.1) && decide (a.2 < b.2))

/-- The call `pq.push(x)`: `top` is the least element, the head of the list. -/
def pqPush : PriorityQueue → ℚ × NodePtr → PriorityQueue
  | [], x => [x]
  | y :: ys, x => if pairLt y x then y :: pqPush ys x else x :: y :: ys

/-! ## Graph -/

structure DijkstraResult where
  success : Bool
  errorMessage : String
  result : ℚ
deriving DecidableEq

structure Graph where
  edgeSet : List EdgePtr
deriving DecidableEq

namespace Graph

/-- The class invariant of `std::set`: iteration is strictly ascending. -/
def WellFormed (g : Graph) : Prop := g.edgeSet.Pairwise (· < ·)

instance (g : Graph) : Decidable g.WellFormed := by
  unfold WellFormed; exact inferInstance

def addEdge (g : Graph) (edge : EdgePtr) : Graph :=
  { edgeSet := setInsert g.edgeSet edge }

/-- The scan of `getEdge` over the edge set, from `begin()` to `end()`. -/
def getEdgeScan (mem : EdgePtr → Edge) (edgeId : Nat) : List EdgePtr → Option EdgePtr
  | [] => none
  | p :: rest => if (mem p).getId = edgeId then some p else getEdgeScan mem edgeId rest

def getEdge (mem : EdgePtr → Edge) (g : Graph) (edgeId : Nat) : Option EdgePtr :=
  getEdgeScan mem edgeId g.edgeSet

def removeEdge (mem : EdgePtr → Edge) (g : Graph) (edgeId : Nat) : Graph :=
  match g.getEdge mem edgeId with
  | some p => { edgeSet := g.edgeSet.erase p }
  | none => g

def addElementToAdjMatrix (adjMatrix : AdjacencyMatrix) (nodeFrom nodeTo : NodePtr)
    (edge : EdgePtr) : AdjacencyMatrix :=
  StdMap.update [] (fun v => v ++ [(nodeTo, edge)]) adjMatrix nodeFrom

/-- The loop of `getAdjMatrix` over the rest of the edge set, `adj` being the
matrix built so far. -/
def getAdjMatrixLoop (mem : EdgePtr → Edge) : List EdgePtr → AdjacencyMatrix → AdjacencyMatrix
  | [], adj => adj
  | p :: rest, adj =>
    if (mem p).isDirected = some true then
      getAdjMatrixLoop mem rest
        (addElementToAdjMatrix adj (mem p).getFrom (mem p).getTo p)
    else if (mem p).isDirected = some false then
      getAdjMatrixLoop mem rest
        (addElementToAdjMatrix
          (addElementToAdjMatrix adj (mem p).getNode1 (mem p).getNode2 p)
          (mem p).getNode2 (mem p).getNode1 p)
    else adj

def getAdjMatrix (mem : EdgePtr → Edge) (g : Graph) : AdjacencyMatrix :=
  getAdjMatrixLoop mem g.edgeSet []

/-- The number of (from, to, edge) entries of the matrix: the sizes of the vectors,
summed over all keys. -/
def totalEntries (adj : AdjacencyMatrix) : Nat :=
  (adj.map (fun kv => kv.2.length)).sum

/-- The (from, to, edge) entries of the matrix, key by key. -/
def entries (adj : AdjacencyMatrix) : List (NodePtr × NodePtr × EdgePtr) :=
  adj.flatMap (fun kv => kv.2.map (fun x => (kv.1, x.1, x.2)))

/-- The entries the specification gives to one edge: (first, second, e) for a directed
edge; (first, second, e) and (second, first, e) for an undirected one. -/
def expectedEntries (mem : EdgePtr → Edge) (p : EdgePtr) : List (NodePtr × NodePtr × EdgePtr) :=
  match (mem p).isDirected with
  | some true => [((mem p).getNodePair.1, (mem p).getNodePair.2, p)]
  | some false =>
    [((mem p).getNodePair.1, (mem p).getNodePair.2, p),
     ((mem p).getNodePair.2, (mem p).getNodePair.1, p)]
  | none => []

/-- The number of directed edges (weighted or not) of the graph. -/
def directedCount (mem : EdgePtr → Edge) (g : Graph) : Nat :=
  g.edgeSet.countP (fun p => decide ((mem p).isDirected = some true))

/-- The number of undirected edges (weighted or not) of the graph. -/
def undirectedCount (mem : EdgePtr → Edge) (g : Graph) : Nat :=
  g.edgeSet.countP (fun p => decide ((mem p).isDirected = some false))

/-- No edge of the graph is an untyped base `Edge`. -/
def NoUntypedEdge (mem : EdgePtr → Edge) (g : Graph) : Prop :=
  ∀ p ∈ g.edgeSet, (mem p).isDirected ≠ none

instance (mem : EdgePtr → Edge) (g : Graph) : Decidable (NoUntypedEdge mem g) := by
  unfold NoUntypedEdge; exact inferInstance

/-- One relaxation
`if (currentDist + w < dist[nodeTo]) { dist[nodeTo] = currentDist + w; pq.push(...); }`.
The comparison reads `dist[nodeTo]` through `operator[]`.  The sum is the exact one;
`relaxWith` below has the addition of the machine in its place. -/
def relax (currentDist w : ℚ) (nodeTo : NodePtr) (dist : StdMap ℚ) (pq : PriorityQueue) :
    StdMap ℚ × PriorityQueue :=
  let r := StdMap.index 0 dist nodeTo
  if currentDist + w < r.1 then
    let dist2 := StdMap.assign 0 r.2 nodeTo (currentDist + w)
    (dist2, pqPush pq ((StdMap.index 0 dist2 nodeTo).1, nodeTo))
  else (r.2, pq)

/-- The `for` loop over `adj.at(currentNode)`: either `dijkstra` returns from inside
it (`Sum.inl`), or it runs to its end (`Sum.inr`). -/
def relaxAll (mem : EdgePtr → Edge) (currentDist : ℚ) :
    List (NodePtr × EdgePtr) → StdMap ℚ → PriorityQueue →
      DijkstraResult ⊕ (StdMap ℚ × PriorityQueue)
  | [], dist, pq => .inr (dist, pq)
  | elem :: rest, dist, pq =>
    if (mem elem.2).isWeighted = some true then
      if (mem elem.2).isDirected = some true then
        let s := relax currentDist (mem elem.2).getWeight elem.1 dist pq
        relaxAll mem currentDist rest s.1 s.2
      else if (mem elem.2).isDirected = some false then
        let s := relax currentDist (mem elem.2).getWeight elem.1 dist pq
        relaxAll mem currentDist rest s.1 s.2
      else
        .inl { success := false, errorMessage := ERR_NO_DIR_OR_UNDIR_EDGE, result := INF_DOUBLE }
    else
      .inl { success := false, errorMessage := ERR_NO_WEIGHTED_EDGE, result := INF_DOUBLE }

/-- How the `while (!pq.empty())` loop ends. -/
inductive LoopExit where
  | returned (r : DijkstraResult)
  | threw (what : String)
  | finished (dist : StdMap ℚ)
deriving DecidableEq

/-- The `while (!pq.empty())` loop, at most `fuel` iterations. -/
def dijkstraLoop (mem : EdgePtr → Edge) (adj : AdjacencyMatrix) :
    Nat → StdMap ℚ → PriorityQueue → Option LoopExit
  | _, dist, [] => some (.finished dist)
  | 0, _, _ :: _ => none
  | fuel + 1, dist, top :: pq =>
    match StdMap.find adj top.2 with
    | none => some (.threw OUT_OF_RANGE)
    | some l =>
      match relaxAll mem top.1 l dist pq with
      | .inl r => some (.returned r)
      | .inr s => dijkstraLoop mem adj fuel s.1 s.2

/-- The distance map before the loop: `INF_DOUBLE` for every key of `adj`, then
`dist[&source] = 0`. -/
def initDist (adj : AdjacencyMatrix) (source : NodePtr) : StdMap ℚ :=
  StdMap.assign 0 (adj.foldl (fun d elem => StdMap.assign 0 d elem.1 INF_DOUBLE) []) source 0

/-- The statements after the loop. -/
def finalCheck (dist : StdMap ℚ) (target : NodePtr) : DijkstraResult :=
  let r := StdMap.index 0 dist target
  if r.1 ≠ INF_DOUBLE then
    { success := true, errorMessage := "", result := (StdMap.index 0 r.2 target).1 }
  else
    { success := false, errorMessage := ERR_DIJ_TARGET_NODE_NOT_REACHABLE, result := -1 }

/-- How a call of `dijkstra` ends: it returns a value, or an exception leaves it. -/
inductive Outcome where
  | returned (r : DijkstraResult)
  | threw (what : String)
deriving DecidableEq

/-- The function `Graph<T>::dijkstra`.  The answer is `none` when the loop does not
finish within `fuel` iterations. -/
def dijkstra (mem : EdgePtr → Edge) (g : Graph) (fuel : Nat) (source target : NodePtr) :
    Option Outcome :=
  let adj := g.getAdjMatrix mem
  match dijkstraLoop mem adj fuel (initDist adj source) [((0 : ℚ), source)] with
  | none => none
  | some (.returned r) => some (.returned r)
  | some (.threw what) => some (.threw what)
  | some (.finished dist) => some (.returned (finalCheck dist target))

/-- One step of a path: along a directed edge from its first to its second end node,
along an undirected edge between its end nodes in either direction; `w` is the weight
of the edge. -/
def EdgeStep (mem : EdgePtr → Edge) (g : Graph) (u v : NodePtr) (w : ℚ) : Prop :=
  ∃ p ∈ g.edgeSet, (mem p).getWeight = w ∧ (u, v, p) ∈ expectedEntries mem p

/-- The paths of the graph that start at `source`: `Walk mem g source v d` says that
some sequence of consecutive edge steps leads from `source` to `v` with total weight
`d` (the empty sequence has weight 0). -/
inductive Walk (mem : EdgePtr → Edge) (g : Graph) (source : NodePtr) : NodePtr → ℚ → Prop where
  | nil : Walk mem g source source 0
  | step {u v : NodePtr} {d w : ℚ} :
      Walk mem g source u d → EdgeStep mem g u v w → Walk mem g source v (d + w)

/-- A common denominator of the weights of the graph: the product of the denominators
of the weights of its edges.  Every distance the loop computes is a multiple of
`1 / weightDen`, which bounds the number of iterations. -/
def weightDen (mem : EdgePtr → Edge) (g : Graph) : Nat :=
  (g.edgeSet.map (fun p => (mem p).getWeight.den)).prod

/-- The quantity that decreases with every iteration of the `while` loop. -/
def loopMeasure (mem : EdgePtr → Edge) (g : Graph) (dist : StdMap ℚ) (pq : PriorityQueue) : ℚ :=
  2 * (weightDen mem g : ℚ) * StdMap.valueSum dist + (pq.length : ℚ)

/-- The invariant of the loops of `dijkstra` on a graph of weighted edges with
non-negative weights.  `todoNode`, `todoDist` and `todo` describe the `for` loop in
progress: the popped node, its popped distance and the adjacency entries not yet
relaxed (`todo = []` between two iterations of the `while` loop). -/
structure DijkstraInv (mem : EdgePtr → Edge) (g : Graph) (source : NodePtr)
    (todoNode : NodePtr) (todoDist : ℚ) (todo : List (NodePtr × EdgePtr))
    (dist : StdMap ℚ) (pq : PriorityQueue) : Prop where
  ordered : StdMap.Ordered dist
  keys : ∀ v, (StdMap.find (g.getAdjMatrix mem) v).isSome = true →
    (StdMap.find dist v).isSome = true
  values : ∀ v x, StdMap.find dist v = some x →
    0 ≤ x ∧ x ≤ INF_DOUBLE ∧ (∃ z : ℤ, (weightDen mem g : ℚ) * x = (z : ℚ)) ∧
      (StdMap.find (g.getAdjMatrix mem) v = none → x = 0) ∧
      (x < INF_DOUBLE → StdMap.find (g.getAdjMatrix mem) v ≠ none → Walk mem g source v x)
  queue : ∀ e ∈ pq, (StdMap.find (g.getAdjMatrix mem) e.2).isSome = true ∧ 0 ≤ e.1 ∧
    (∃ z : ℤ, (weightDen mem g : ℚ) * e.1 = (z : ℚ)) ∧ Walk mem g source e.2 e.1
  relaxed : ∀ v x l, StdMap.find dist v = some x → x < INF_DOUBLE →
    StdMap.find (g.getAdjMatrix mem) v = some l →
    ∀ elem ∈ l, (x, v) ∈ pq ∨ StdMap.read 0 dist elem.1 ≤ x + (mem elem.2).getWeight ∨
      (v = todoNode ∧ x = todoDist ∧ elem ∈ todo)
  source_zero : StdMap.read 0 dist source ≤ 0

/-! ### The addition of `double` made explicit

The only arithmetic of `dijkstra` is the sum `currentDist + getWeight()` of lines 627,
629, 634 and 636, which the machine computes in `double` and may round.  The
definitions below repeat `relax`, `relaxAll`, `dijkstraLoop`, `dijkstra` and
`loopStateAt` with that addition as a parameter `fadd`: `fadd x y` is the `double`
the machine computes for `x + y`.  The comparisons `<` and `!=` of `double` values are
exact, and so are the constants `0`, `-1` and `INF_DOUBLE`.  The definitions above are
the instance in which the addition is exact. -/

/-- One relaxation
`if (currentDist + w < dist[nodeTo]) { dist[nodeTo] = currentDist + w; pq.push(...); }`
where the machine computes `fadd currentDist w` for the sum, in the comparison and in
the assignment. -/
def relaxWith (fadd : ℚ → ℚ → ℚ) (currentDist w : ℚ) (nodeTo : NodePtr) (dist : StdMap ℚ)
    (pq : PriorityQueue) : StdMap ℚ × PriorityQueue :=
  let r := StdMap.index 0 dist nodeTo
  if fadd currentDist w < r.1 then
    let dist2 := StdMap.assign 0 r.2 nodeTo (fadd currentDist w)
    (dist2, pqPush pq ((StdMap.index 0 dist2 nodeTo).1, nodeTo))
  else (r.2, pq)

/-- The `for` loop over `adj.at(currentNode)` with the addition `fadd`. -/
def relaxAllWith (fadd : ℚ → ℚ → ℚ) (mem : EdgePtr → Edge) (currentDist : ℚ) :
    List (NodePtr × EdgePtr) → StdMap ℚ → PriorityQueue →
      DijkstraResult ⊕ (StdMap ℚ × PriorityQueue)
  | [], dist, pq => .inr (dist, pq)
  | elem :: rest, dist, pq =>
    if (mem elem.2).isWeighted = some true then
      if (mem elem.2).isDirected = some true then
        let s := relaxWith fadd currentDist (mem elem.2).getWeight elem.1 dist pq
        relaxAllWith fadd mem currentDist rest s.1 s.2
      else if (mem elem.2).isDirected = some false then
        let s := relaxWith fadd currentDist (mem elem.2).getWeight elem.1 dist pq
        relaxAllWith fadd mem currentDist rest s.1 s.2
      else
        .inl { success := false, errorMessage := ERR_NO_DIR_OR_UNDIR_EDGE, result := INF_DOUBLE }
    else
      .inl { success := false, errorMessage := ERR_NO_WEIGHTED_EDGE, result := INF_DOUBLE }

/-- The `while (!pq.empty())` loop with the addition `fadd`, at most `fuel`
iterations. -/
def dijkstraLoopWith (fadd : ℚ → ℚ → ℚ) (mem : EdgePtr → Edge) (adj : AdjacencyMatrix) :
    Nat → StdMap ℚ → PriorityQueue → Option LoopExit
  | _, dist, [] => some (.finished dist)
  | 0, _, _ :: _ => none
  | fuel + 1, dist, top :: pq =>
    match StdMap.find adj top.2 with
    | none => some (.threw OUT_OF_RANGE)
    | some l =>
      match relaxAllWith fadd mem top.1 l dist pq with
      | .inl r => some (.returned r)
      | .inr s => dijkstraLoopWith fadd mem adj fuel s.1 s.2

/-- The function `Graph<T>::dijkstra` with the addition `fadd` of the machine.  The
answer is `none` when the loop does not finish within `fuel` iterations. -/
def dijkstraWith (fadd : ℚ → ℚ → ℚ) (mem : EdgePtr → Edge) (g : Graph) (fuel : Nat)
    (source target : NodePtr) : Option Outcome :=
  let adj := g.getAdjMatrix mem
  match dijkstraLoopWith fadd mem adj fuel (initDist adj source) [((0 : ℚ), source)] with
  | none => none
  | some (.returned r) => some (.returned r)
  | some (.threw what) => some (.threw what)
  | some (.finished dist) => some (.returned (finalCheck dist target))

end Graph

/-! ## Partitioner -/

namespace PARTITIONING

def INT_MAX : Int := 2147483647

/-- The value an `int` takes for the exact result `x`: `x` itself when it is
representable, and the two's-complement wrap of `x` otherwise (where C++ leaves the
behaviour undefined). -/
def wrapInt (x : Int) : Int := (x + 2147483648) % 4294967296 - 2147483648

/-- The statement `int subSize = n / processors + 1;`.  The quotient truncates; for
`processors = 0` C++ divides by zero, where `Int.tdiv` answers 0. -/
def subSize (n processors : Int) : Int := wrapInt (Int.tdiv n processors + 1)

/-- The statement `int iStart = t * subSize;`. -/
def iStart (subSize t : Int) : Int := wrapInt (t * subSize)

/-- The statement `int iEnd = std::min((t + 1) * subSize, n);`. -/
def iEnd (n subSize t : Int) : Int := min (wrapInt (wrapInt (t + 1) * subSize)) n

/-- One pass of the first `for` loop of `startCoordinated`: the index range
`[iStart, iEnd)` of the slice given to the worker spawned for `t`, or `none` when
the guard `iEnd >= iStart` fails and no worker is spawned. -/
def workerSlice (n subSize t : Int) : Option (Int × Int) :=
  if iEnd n subSize t ≥ iStart subSize t then some (iStart subSize t, iEnd n subSize t)
  else none

/-- The index ranges of the workers that `startCoordinated` spawns for a dataset of
`n` edges and `processors` threads, for `t = 0, 1, ..., processors - 1` in turn. -/
def startCoordinatedSlices (n processors : Int) : List (Int × Int) :=
  (List.range processors.toNat).filterMap
    (fun t : Nat => workerSlice n (subSize n processors) (t : Int))

/-- The index `i` lies in the range `[s.1, s.2)`. -/
def inSlice (i : Int) (s : Int × Int) : Bool := decide (s.1 ≤ i) && decide (i < s.2)

/-- Modelled from the spec: the enumeration of `PartitionAlgorithm.hpp`, which is not
among the sources; the values are the five strategies of the specification, under the
names the constructor of `Partitioner` tests. -/
inductive PartitionAlgorithm where
  | HDRF_ALG
  | EDGEBALANCED_VC_ALG
  | GREEDY_VC_ALG
  | EBV_ALG
  | WB_LIBRA
deriving DecidableEq

/-- Modelled from the spec: the configuration of `Partitioning/Utility/Globals.hpp`,
which is not among the sources; the fields are those `Partitioner.hpp` reads
(`partitionStategy` is the source's spelling). -/
structure Globals where
  partitionStategy : PartitionAlgorithm
  numberOfPartition : Nat
  threads : Nat
  param1 : ℚ
deriving DecidableEq

/-- The strategy object a constructor of `Partitioner` creates, with the arguments
it is created from.  The `std::unordered_map` of degrees is kept as the list of its
entries in key order. -/
inductive PartitionStrategy where
  | HDRF (G : Globals)
  | EdgeBalancedVertexCut (G : Globals)
  | GreedyVertexCut (G : Globals)
  | EBV (G : Globals)
  | WeightBalancedLibra (G : Globals) (weight_sum_bound : ℚ) (vertices_degrees : StdMap Int)
deriving DecidableEq

/-- The loop `weight_sum += isWeighted ? getWeight() : NEGLIGIBLE_WEIGHT` over the
dataset, from `weight_sum = 0.0`.  The constant `CXXGRAPH::NEGLIGIBLE_WEIGHT` is
declared outside the sources and is a parameter here. -/
def weightSum (NEGLIGIBLE_WEIGHT : ℚ) (mem : EdgePtr → Edge) (dataset : List EdgePtr) : ℚ :=
  dataset.foldl
    (fun weight_sum edge_it =>
      weight_sum +
        (if (mem edge_it).isWeighted = some true then (mem edge_it).getWeight
         else NEGLIGIBLE_WEIGHT))
    0

/-- The statements of the dataset constructor that compute `weight_sum_bound`:
`lambda = std::max(1.0, GLOBALS.param1)`, `P = numberOfPartition` as a `double`, and
`(GLOBALS.numberOfPartition == 0) ? 0.0 : lambda * weight_sum / P`. -/
def weightSumBound (G : Globals) (weight_sum : ℚ) : ℚ :=
  let lambda : ℚ := max 1 G.param1
  let P : ℚ := (G.numberOfPartition : ℚ)
  if G.numberOfPartition = 0 then 0 else lambda * weight_sum / P

/-- The loop `vertices_degrees[u]++; vertices_degrees[v]++;` over the dataset, `u` and
`v` being the ids of the two end nodes; `nodeId` reads the id of the node at an
address.  The counters are `int`s. -/
def verticesDegrees (nodeId : NodePtr → Nat) (mem : EdgePtr → Edge)
    (dataset : List EdgePtr) : StdMap Int :=
  dataset.foldl
    (fun deg edge_it =>
      let u := nodeId (mem edge_it).getNodePair.1
      let v := nodeId (mem edge_it).getNodePair.2
      StdMap.update 0 (fun d => wrapInt (d + 1))
        (StdMap.update 0 (fun d => wrapInt (d + 1)) deg u) v)
    []

/-- The members of `Partitioner<T>`; `algorithm = none` is the null pointer. -/
structure Partitioner where
  dataset : List EdgePtr
  algorithm : Option PartitionStrategy
  GLOBALS : Globals

/-- The constructor `Partitioner(const T_EdgeSet<T>* dataset, Globals& G)`.  The
dataset is the list of its edges in iteration order. -/
def Partitioner.fromDataset (NEGLIGIBLE_WEIGHT : ℚ) (nodeId : NodePtr → Nat)
    (mem : EdgePtr → Edge) (dataset : List EdgePtr) (G : Globals) : Partitioner :=
  { dataset := dataset
    GLOBALS := G
    algorithm :=
      if G.partitionStategy = .HDRF_ALG then some (.HDRF G)
      else if G.partitionStategy = .EDGEBALANCED_VC_ALG then some (.EdgeBalancedVertexCut G)
      else if G.partitionStategy = .GREEDY_VC_ALG then some (.GreedyVertexCut G)
      else if G.partitionStategy = .EBV_ALG then some (.EBV G)
      else if G.partitionStategy = .WB_LIBRA then
        some (.WeightBalancedLibra G
          (weightSumBound G (weightSum NEGLIGIBLE_WEIGHT mem dataset))
          (verticesDegrees nodeId mem dataset))
      else none }

/-- The statements of the copy constructor that compute `weight_sum_bound`:
`lambda = GLOBALS.param1`, `P = numberOfPartition` as a `double`, and
`(GLOBALS.numberOfPartition == 0) ? 0.0 : lambda * weight_sum / P`. -/
def weightSumBoundCopy (G : Globals) (weight_sum : ℚ) : ℚ :=
  let lambda : ℚ := G.param1
  let P : ℚ := (G.numberOfPartition : ℚ)
  if G.numberOfPartition = 0 then 0 else lambda * weight_sum / P

/-- The copy constructor `Partitioner(const Partitioner& other)`: it takes the dataset
and the configuration of `other` and creates a strategy of its own. -/
def Partitioner.copy (NEGLIGIBLE_WEIGHT : ℚ) (nodeId : NodePtr → Nat)
    (mem : EdgePtr → Edge) (other : Partitioner) : Partitioner :=
  { dataset := other.dataset
    GLOBALS := other.GLOBALS
    algorithm :=
      if other.GLOBALS.partitionStategy = .HDRF_ALG then some (.HDRF other.GLOBALS)
      else if other.GLOBALS.partitionStategy = .EDGEBALANCED_VC_ALG then
        some (.EdgeBalancedVertexCut other.GLOBALS)
      else if other.GLOBALS.partitionStategy = .GREEDY_VC_ALG then
        some (.GreedyVertexCut other.GLOBALS)
      else if other.GLOBALS.partitionStategy = .EBV_ALG then some (.EBV other.GLOBALS)
      else if other.GLOBALS.partitionStategy = .WB_LIBRA then
        some (.WeightBalancedLibra other.GLOBALS
          (weightSumBoundCopy other.GLOBALS (weightSum NEGLIGIBLE_WEIGHT mem other.dataset))
          (verticesDegrees nodeId mem other.dataset))
      else none }

/-- The degree the specification gives to the vertex id `x`: the number of edges of
the dataset whose first end node has id `x` plus the number whose second has. -/
def expectedDegree (nodeId : NodePtr → Nat) (mem : EdgePtr → Edge)
    (dataset : List EdgePtr) (x : Nat) : Nat :=
  dataset.countP (fun p => decide (nodeId (mem p).getNodePair.1 = x)) +
    dataset.countP (fun p => decide (nodeId (mem p).getNodePair.2 = x))

/-- The sum the specification gives for `weight_sum`: the weights of the weighted
edges, plus `NEGLIGIBLE_WEIGHT` for each edge that is not weighted. -/
def expectedWeightSum (NEGLIGIBLE_WEIGHT : ℚ) (mem : EdgePtr → Edge)
    (dataset : List EdgePtr) : ℚ :=
  ((dataset.filter (fun p => decide ((mem p).isWeighted = some true))).map
      (fun p => (mem p).getWeight)).sum +
    (dataset.countP (fun p => !decide ((mem p).isWeighted = some true)) : ℚ) * NEGLIGIBLE_WEIGHT

end PARTITIONING

/-! ## Example stores and graphs -/

/-- Nodes A, B, C at addresses 10, 20, 30; `DirectedWeightedEdge` A→B of weight 1 at
address 1000 and B→C of weight 2 at address 2000. -/
def chainMem : EdgePtr → Edge
  | 1000 => .DirectedWeightedEdge 1 (10, 20) 1
  | 2000 => .DirectedWeightedEdge 2 (20, 30) 2
  | _ => .base 0 (0, 0)

def chainGraph : Graph := { edgeSet := [1000, 2000] }

/-- Nodes A, B at addresses 10, 20 joined by an `UndirectedWeightedEdge` of weight 1
at address 1000; the node D at address 40 is in no edge. -/
def isolatedMem : EdgePtr → Edge
  | 1000 => .UndirectedWeightedEdge 1 (10, 20) 1
  | _ => .base 0 (0, 0)

def isolatedGraph : Graph := { edgeSet := [1000] }

/-- Nodes at 10, 20, 30: an unweighted `DirectedEdge` 10→20 at address 1000, an
`UndirectedWeightedEdge` between 20 and 30 at address 2000 and an undirected
self-loop on 10 at address 3000. -/
def shapesMem : EdgePtr → Edge
  | 1000 => .DirectedEdge 1 (10, 20)
  | 2000 => .UndirectedWeightedEdge 2 (20, 30) 5
  | 3000 => .UndirectedEdge 3 (10, 10)
  | _ => .base 0 (0, 0)

def shapesGraph : Graph := { edgeSet := [1000, 2000, 3000] }

/-- Three edge objects, two of them (at addresses 2000 and 3000) with the same id 7. -/
def sameIdMem : EdgePtr → Edge
  | 1000 => .DirectedEdge 1 (10, 20)
  | 2000 => .DirectedEdge 7 (20, 30)
  | 3000 => .UndirectedEdge 7 (10, 30)
  | _ => .base 0 (0, 0)

def sameIdGraph : Graph := { edgeSet := [1000, 2000, 3000] }

/-- Nodes A, B, C at 10, 20, 30: an `UndirectedWeightedEdge` between A and B of weight 1
at address 1000, an untyped base `Edge` between B and C at address 2000 and a
`DirectedWeightedEdge` B→C of weight 4 at address 3000. -/
def untypedMem : EdgePtr → Edge
  | 1000 => .UndirectedWeightedEdge 1 (10, 20) 1
  | 2000 => .base 2 (20, 30)
  | 3000 => .DirectedWeightedEdge 3 (20, 30) 4
  | _ => .base 0 (0, 0)

def untypedGraph : Graph := { edgeSet := [1000, 2000, 3000] }

/-- Nodes A, B at 10, 20 joined by an `UndirectedWeightedEdge` at address 1000 whose
weight is `INF_DOUBLE`, the largest finite `double`. -/
def hugeMem : EdgePtr → Edge
  | 1000 => .UndirectedWeightedEdge 1 (10, 20) INF_DOUBLE
  | _ => .base 0 (0, 0)

def hugeGraph : Graph := { edgeSet := [1000] }

/-- An addition that is exact where the sum is an integer of absolute value at most
2^53, as the addition of `double` is, and answers `INF_DOUBLE` everywhere else. -/
def addExactTo2p53 (x y : ℚ) : ℚ :=
  if (x + y).den = 1 ∧ |x + y| ≤ 9007199254740992 then x + y else INF_DOUBLE

/-- A configuration choosing the weight-balanced Libra strategy, 4 partitions, 2
threads and `param1 = 3`. -/
def libraGlobals : PARTITIONING.Globals :=
  { partitionStategy := .WB_LIBRA, numberOfPartition := 4, threads := 2, param1 := 3 }

/-- A configuration choosing the weight-balanced Libra strategy with one partition and
`param1 = 1/2`. -/
def halfGlobals : PARTITIONING.Globals :=
  { partitionStategy := .WB_LIBRA, numberOfPartition := 1, threads := 1, param1 := 1 / 2 }

end CXXGRAPH

/-! # Theorems -/

namespace CXXGRAPH

open Graph

/-! ## Maps -/

theorem StdMap.find_eq_none_of_lt {V : Type} (key : NodePtr) :
    ∀ (m : StdMap V), (∀ kv ∈ m, key < kv.1) → StdMap.find m key = none := by
  intro m
  induction m with
  | nil => intro _; rfl
  | cons kv rest ih =>
    intro h
    obtain ⟨k, v⟩ := kv
    have h1 : key < k := h (k, v) (List.mem_cons_self _ _)
    have h2 : key ≠ k := Nat.ne_of_lt h1
    simp only [StdMap.find, h2, if_false]
    exact ih (fun kv hkv => h kv (List.mem_cons_of_mem _ hkv))

theorem StdMap.find_update_self {V : Type} (dflt : V) (f : V → V) (m : StdMap V) (key : NodePtr)
    (hm : StdMap.Ordered m) :
    StdMap.find (StdMap.update dflt f m key) key = some (f ((StdMap.find m key).getD dflt)) := by
  induction m with
  | nil => simp [StdMap.update, StdMap.find]
  | cons kv rest ih =>
    obtain ⟨k, v⟩ := kv
    have hm2 : (∀ kv ∈ rest, k < kv.1) ∧ StdMap.Ordered rest := by
      simpa [StdMap.Ordered, List.pairwise_cons] using hm
    by_cases h1 : key < k
    · have h2 : key ≠ k := Nat.ne_of_lt h1
      have h3 : StdMap.find rest key = none :=
        StdMap.find_eq_none_of_lt key rest (fun kv hkv => Nat.lt_trans h1 (hm2.1 kv hkv))
      simp [StdMap.update, StdMap.find, h1, h2, h3]
    · by_cases h2 : key = k
      · subst h2
        simp [StdMap.update, StdMap.find]
      · simp [StdMap.update, StdMap.find, h1, h2, ih hm2.2]

theorem StdMap.find_update_other {V : Type} (dflt : V) (f : V → V) (m : StdMap V)
    (key j : NodePtr) (hj : j ≠ key) :
    StdMap.find (StdMap.update dflt f m key) j = StdMap.find m j := by
  induction m with
  | nil => simp [StdMap.update, StdMap.find, hj]
  | cons kv rest ih =>
    obtain ⟨k, v⟩ := kv
    by_cases h1 : key < k
    · simp [StdMap.update, StdMap.find, h1, hj]
    · by_cases h2 : key = k
      · subst h2
        simp [StdMap.update, StdMap.find, hj]
      · simp [StdMap.update, StdMap.find, h1, h2, ih]

theorem StdMap.mem_update {V : Type} (dflt : V) (f : V → V) (key : NodePtr) :
    ∀ (m : StdMap V) (kv : NodePtr × V),
      kv ∈ StdMap.update dflt f m key → kv.1 = key ∨ kv ∈ m := by
  intro m
  induction m with
  | nil =>
    intro kv h
    simp only [StdMap.update, List.mem_singleton] at h
    left; rw [h]
  | cons hd rest ih =>
    obtain ⟨k, v⟩ := hd
    intro kv h
    by_cases h1 : key < k
    · simp only [StdMap.update, h1, if_true, List.mem_cons] at h
      rcases h with h | h | h
      · left; rw [h]
      · right; rw [h]; exact List.mem_cons_self _ _
      · right; exact List.mem_cons_of_mem _ h
    · by_cases h2 : key = k
      · subst h2
        simp only [StdMap.update, Nat.lt_irrefl, if_false, if_true, List.mem_cons] at h
        rcases h with h | h
        · left; rw [h]
        · right; exact List.mem_cons_of_mem _ h
      · simp only [StdMap.update, h1, h2, if_false, List.mem_cons] at h
        rcases h with h | h
        · right; rw [h]; exact List.mem_cons_self _ _
        · rcases ih kv h with h3 | h3
          · left; exact h3
          · right; exact List.mem_cons_of_mem _ h3

/-- An update keeps the map in key order. -/
theorem StdMap.ordered_update {V : Type} (dflt : V) (f : V → V) (key : NodePtr) :
    ∀ m : StdMap V, StdMap.Ordered m → StdMap.Ordered (StdMap.update dflt f m key) := by
  intro m
  induction m with
  | nil => intro _; simp [StdMap.update, StdMap.Ordered]
  | cons hd rest ih =>
    obtain ⟨k, v⟩ := hd
    intro hm
    have hm2 : (∀ kv ∈ rest, k < kv.1) ∧ StdMap.Ordered rest := by
      simpa [StdMap.Ordered, List.pairwise_cons] using hm
    by_cases h1 : key < k
    · simp only [StdMap.update, h1, if_true]
      have : (∀ kv ∈ ((k, v) :: rest), key < kv.1) := by
        intro kv hkv
        rcases List.mem_cons.mp hkv with h | h
        · rw [h]; exact h1
        · exact Nat.lt_trans h1 (hm2.1 kv h)
      simp only [StdMap.Ordered, List.map_cons, List.pairwise_cons]
      refine ⟨?_, ?_⟩
      · intro a ha
        rcases List.mem_cons.mp ha with h | h
        · rw [h]; exact h1
        · obtain ⟨kv, hkv, rfl⟩ := List.mem_map.mp h
          exact Nat.lt_trans h1 (hm2.1 kv hkv)
      · simpa [StdMap.Ordered, List.pairwise_cons] using hm
    · by_cases h2 : key = k
      · subst h2
        simp only [StdMap.update, Nat.lt_irrefl, if_false, if_true]
        simpa [StdMap.Ordered, List.pairwise_cons] using hm
      · simp only [StdMap.update, h1, h2, if_false]
        simp only [StdMap.Ordered, List.map_cons, List.pairwise_cons]
        refine ⟨?_, ih hm2.2⟩
        intro a ha
        obtain ⟨kv, hkv, rfl⟩ := List.mem_map.mp ha
        rcases StdMap.mem_update dflt f key rest kv hkv with h | h
        · rw [h]; exact Nat.lt_of_le_of_ne (Nat.le_of_not_lt h1) (Ne.symm h2)
        · exact hm2.1 kv h

theorem StdMap.find_of_mem {V : Type} (key : NodePtr) (v : V) :
    ∀ m : StdMap V, StdMap.Ordered m → (key, v) ∈ m → StdMap.find m key = some v := by
  intro m
  induction m with
  | nil => intro _ h; simp at h
  | cons hd rest ih =>
    obtain ⟨k, w⟩ := hd
    intro hm h
    have hm2 : (∀ kv ∈ rest, k < kv.1) ∧ StdMap.Ordered rest := by
      simpa [StdMap.Ordered, List.pairwise_cons] using hm
    rcases List.mem_cons.mp h with h | h
    · have hk : key = k := congrArg Prod.fst h
      have hv : v = w := congrArg Prod.snd h
      simp [StdMap.find, hk, hv]
    · have hk : key ≠ k := Nat.ne_of_gt (hm2.1 (key, v) h)
      simp only [StdMap.find, hk, if_false]
      exact ih hm2.2 h

/-- The read `m[key]`, in a map in key order. -/
theorem StdMap.index_fst {V : Type} (dflt : V) (m : StdMap V) (key : NodePtr)
    (hm : StdMap.Ordered m) : (StdMap.index dflt m key).1 = StdMap.read dflt m key := by
  simp only [StdMap.index, StdMap.read]
  rw [StdMap.find_update_self dflt id m key hm]
  rfl

/-- The sum of the values after an update of the entry of `key`. -/
theorem StdMap.valueSum_update {V : Type} [AddCommGroup V] (f : V → V) (key : NodePtr) :
    ∀ m : StdMap V, StdMap.Ordered m →
      StdMap.valueSum (StdMap.update 0 f m key) =
        StdMap.valueSum m - StdMap.read 0 m key + f (StdMap.read 0 m key) := by
  intro m
  induction m with
  | nil =>
    intro _
    simp [StdMap.update, StdMap.valueSum, StdMap.read, StdMap.find]
  | cons hd rest ih =>
    obtain ⟨k, v⟩ := hd
    intro hm
    have hm2 : (∀ kv ∈ rest, k < kv.1) ∧ StdMap.Ordered rest := by
      simpa [StdMap.Ordered, List.pairwise_cons] using hm
    by_cases h1 : key < k
    · have h2 : key ≠ k := Nat.ne_of_lt h1
      have h3 : StdMap.find rest key = none :=
        StdMap.find_eq_none_of_lt key rest (fun kv hkv => Nat.lt_trans h1 (hm2.1 kv hkv))
      simp only [StdMap.update, h1, if_true, StdMap.valueSum, StdMap.read, StdMap.find, h2,
        if_false, h3, Option.getD_none, List.map_cons, List.sum_cons]
      abel
    · by_cases h2 : key = k
      · subst h2
        simp only [StdMap.update, Nat.lt_irrefl, if_false, if_true, StdMap.valueSum,
          StdMap.read, StdMap.find, Option.getD_some, List.map_cons, List.sum_cons]
        abel
      · have ih2 := ih hm2.2
        simp only [StdMap.valueSum, StdMap.read] at ih2
        simp only [StdMap.update, h1, h2, if_false, StdMap.valueSum, StdMap.read, StdMap.find,
          List.map_cons, List.sum_cons, ih2]
        abel

/-! ## The loop of `dijkstra` -/

theorem dijkstraLoop_nil (mem : EdgePtr → Edge) (adj : AdjacencyMatrix) (fuel : Nat)
    (dist : StdMap ℚ) : dijkstraLoop mem adj fuel dist [] = some (.finished dist) := by
  cases fuel <;> rfl

/-- More fuel does not change the answer of a loop that has ended. -/
theorem dijkstraLoop_fuel_mono (mem : EdgePtr → Edge) (adj : AdjacencyMatrix) (k : Nat) :
    ∀ (n : Nat) (dist : StdMap ℚ) (pq : PriorityQueue) (r : LoopExit),
      dijkstraLoop mem adj n dist pq = some r →
      dijkstraLoop mem adj (n + k) dist pq = some r := by
  intro n
  induction n with
  | zero =>
    intro dist pq r h
    cases pq with
    | nil => rw [dijkstraLoop_nil] at h ⊢; exact h
    | cons top pq => simp [dijkstraLoop] at h
  | succ n ih =>
    intro dist pq r h
    cases pq with
    | nil => rw [dijkstraLoop_nil] at h ⊢; exact h
    | cons top pq =>
      have e : n + 1 + k = (n + k) + 1 := by omega
      rw [e]
      simp only [dijkstraLoop] at h ⊢
      cases hf : StdMap.find adj top.2 with
      | none => rw [hf] at h; simpa using h
      | some l =>
        rw [hf] at h
        simp only at h ⊢
        cases hr : relaxAll mem top.1 l dist pq with
        | inl res => rw [hr] at h; simpa using h
        | inr s => rw [hr] at h; exact ih _ _ _ h

theorem dijkstra_fuel_mono (mem : EdgePtr → Edge) (g : Graph) (n k : Nat)
    (source target : NodePtr) (o : Outcome)
    (h : dijkstra mem g n source target = some o) :
    dijkstra mem g (n + k) source target = some o := by
  unfold dijkstra at h ⊢
  simp only at h ⊢
  cases hl : dijkstraLoop mem (g.getAdjMatrix mem) n
      (initDist (g.getAdjMatrix mem) source) [((0 : ℚ), source)] with
  | none => rw [hl] at h; simp at h
  | some r =>
    rw [dijkstraLoop_fuel_mono mem _ k n _ _ r hl]
    rw [hl] at h
    exact h

/-- In the closed hierarchy a weighted edge is directed or undirected. -/
theorem Edge.isDirected_of_isWeighted (e : Edge) (h : e.isWeighted = some true) :
    e.isDirected = some true ∨ e.isDirected = some false := by
  cases e <;> simp [Edge.isWeighted, Edge.isDirected] at h ⊢

/-- C1 (the code at the failing input).  On the spec's own instance, directed weighted
edges A→B of weight 1 and B→C of weight 2, `dijkstra(A, C)` returns `success = true`
with `result = 0`, not 3: C is the key of no adjacency list, so `dist[C]` is first
created with value 0 by the read in the relaxation test and is never lowered. -/
theorem dijkstra_chain_sink_target_reports_zero (fuel : Nat) :
    dijkstra chainMem chainGraph (fuel + 2) 10 30 =
      some (.returned { success := true, errorMessage := "", result := 0 }) := by
  have h : dijkstra chainMem chainGraph 2 10 30 =
      some (.returned { success := true, errorMessage := "", result := 0 }) := by decide!
  have h2 := dijkstra_fuel_mono chainMem chainGraph 2 fuel 10 30 _ h
  rw [Nat.add_comm] at h2
  exact h2

/-- C2 (the code at the failing input).  With A and B joined by a weighted edge and D
in no edge, `dijkstra(A, D)` returns `success = true`, an empty message and
`result = 0`: the final test reads `dist[D]` through `operator[]`, which creates the
entry with value 0, different from `INF_DOUBLE`. -/
theorem dijkstra_isolated_target_reports_zero (fuel : Nat) :
    dijkstra isolatedMem isolatedGraph (fuel + 3) 10 40 =
      some (.returned { success := true, errorMessage := "", result := 0 }) := by
  have h : dijkstra isolatedMem isolatedGraph 3 10 40 =
      some (.returned { success := true, errorMessage := "", result := 0 }) := by decide!
  have h2 := dijkstra_fuel_mono isolatedMem isolatedGraph 3 fuel 10 40 _ h
  rw [Nat.add_comm] at h2
  exact h2

/-- C4 (the code at the failing inputs).  When `source` is the key of no adjacency
list, the first iteration evaluates `adj.at(&source)`, which throws
`std::out_of_range`: no `DijkstraResult` is returned. -/
theorem dijkstra_throws_of_source_not_key (mem : EdgePtr → Edge) (g : Graph)
    (source target : NodePtr) (fuel : Nat)
    (hsrc : StdMap.find (g.getAdjMatrix mem) source = none) :
    dijkstra mem g (fuel + 1) source target = some (.threw "std::out_of_range") := by
  unfold dijkstra
  simp only [dijkstraLoop, hsrc]
  rfl

/-- C4, instance: in the graph A→B, B→C the node C is no adjacency key, and
`dijkstra(C, A)` throws. -/
theorem dijkstra_throws_of_source_not_key_witness :
    StdMap.find (chainGraph.getAdjMatrix chainMem) 30 = none ∧
      dijkstra chainMem chainGraph 1 30 10 = some (.threw "std::out_of_range") :=
  ⟨by decide, dijkstra_throws_of_source_not_key chainMem chainGraph 30 10 0 (by decide)⟩

/-! ## The adjacency matrix -/

theorem totalEntries_eq_length (adj : AdjacencyMatrix) :
    totalEntries adj = (entries adj).length := by
  induction adj with
  | nil => rfl
  | cons kv rest ih =>
    simp only [totalEntries, entries, List.map_cons, List.sum_cons, List.flatMap_cons,
      List.length_append, List.length_map] at ih ⊢
    rw [ih]

theorem entries_addElementToAdjMatrix (nodeFrom nodeTo : NodePtr) (edge : EdgePtr) :
    ∀ adj : AdjacencyMatrix,
      (entries (addElementToAdjMatrix adj nodeFrom nodeTo edge)).Perm
        ((nodeFrom, nodeTo, edge) :: entries adj) := by
  intro adj
  induction adj with
  | nil => simp [addElementToAdjMatrix, StdMap.update, entries]
  | cons kv rest ih =>
    obtain ⟨k, v⟩ := kv
    by_cases h1 : nodeFrom < k
    · simp [addElementToAdjMatrix, StdMap.update, entries, h1]
    · by_cases h2 : nodeFrom = k
      · subst h2
        simp only [addElementToAdjMatrix, StdMap.update, entries, h1, if_false, if_true,
          List.flatMap_cons, List.map_append, List.map_cons, List.map_nil, List.append_assoc,
          List.singleton_append]
        exact List.perm_middle
      · have ih2 : (entries (StdMap.update [] (fun v => v ++ [(nodeTo, edge)]) rest nodeFrom)).Perm
            ((nodeFrom, nodeTo, edge) :: entries rest) := ih
        simp only [addElementToAdjMatrix, StdMap.update, h1, h2, if_false]
        show (List.map (fun x => (k, x.1, x.2)) v ++
            entries (StdMap.update [] (fun v => v ++ [(nodeTo, edge)]) rest nodeFrom)).Perm
          ((nodeFrom, nodeTo, edge) :: (List.map (fun x => (k, x.1, x.2)) v ++ entries rest))
        exact (List.Perm.append_left _ ih2).trans List.perm_middle

theorem entries_getAdjMatrixLoop (mem : EdgePtr → Edge) :
    ∀ (l : List EdgePtr) (adj : AdjacencyMatrix),
      (∀ p ∈ l, (mem p).isDirected ≠ none) →
      (entries (getAdjMatrixLoop mem l adj)).Perm (entries adj ++ l.flatMap (expectedEntries mem)) := by
  intro l
  induction l with
  | nil => intro adj _; simp [getAdjMatrixLoop]
  | cons p rest ih =>
    intro adj h
    have hrest : ∀ q ∈ rest, (mem q).isDirected ≠ none :=
      fun q hq => h q (List.mem_cons_of_mem _ hq)
    have hp : (mem p).isDirected ≠ none := h p (List.mem_cons_self _ _)
    cases hd : (mem p).isDirected with
    | none => exact absurd hd hp
    | some b =>
      cases b with
      | true =>
        simp only [getAdjMatrixLoop, hd, if_true, List.flatMap_cons, expectedEntries]
        refine (ih _ hrest).trans ?_
        have h1 := entries_addElementToAdjMatrix (mem p).getFrom (mem p).getTo p adj
        refine (List.Perm.append_right _ h1).trans ?_
        simp only [Edge.getFrom, Edge.getTo, List.cons_append, List.singleton_append]
        exact List.perm_middle.symm
      | false =>
        simp only [getAdjMatrixLoop, hd, show (some false = some true) = False by simp,
          if_false, if_true, List.flatMap_cons, expectedEntries]
        refine (ih _ hrest).trans ?_
        have h1 := entries_addElementToAdjMatrix (mem p).getNode1 (mem p).getNode2 p adj
        have h2 := entries_addElementToAdjMatrix (mem p).getNode2 (mem p).getNode1 p
          (addElementToAdjMatrix adj (mem p).getNode1 (mem p).getNode2 p)
        have h3 := h2.trans ((List.Perm.cons _ h1).trans (List.Perm.swap _ _ _))
        refine (List.Perm.append_right _ h3).trans ?_
        simp only [Edge.getNode1, Edge.getNode2, List.cons_append, List.nil_append]
        refine (List.Perm.cons _ List.perm_middle.symm).trans ?_
        exact (@List.perm_middle _ ((mem p).getNodePair.1, (mem p).getNodePair.2, p)
          (entries adj) _).symm

theorem length_flatMap_expectedEntries (mem : EdgePtr → Edge) :
    ∀ l : List EdgePtr, (∀ p ∈ l, (mem p).isDirected ≠ none) →
      (l.flatMap (expectedEntries mem)).length =
        l.countP (fun p => decide ((mem p).isDirected = some true)) +
          2 * l.countP (fun p => decide ((mem p).isDirected = some false)) := by
  intro l
  induction l with
  | nil => intro _; rfl
  | cons p rest ih =>
    intro h
    have hrest : ∀ q ∈ rest, (mem q).isDirected ≠ none :=
      fun q hq => h q (List.mem_cons_of_mem _ hq)
    have hp : (mem p).isDirected ≠ none := h p (List.mem_cons_self _ _)
    simp only [List.flatMap_cons, List.length_append, List.countP_cons, ih hrest]
    cases hd : (mem p).isDirected with
    | none => exact absurd hd hp
    | some b => cases b <;> simp [expectedEntries, hd] <;> omega

/-- C5.  For a graph of `k` directed and `m` undirected edges and no untyped base
edge, the matrix returned by `getAdjMatrix` has `k + 2m` entries in total. -/
theorem getAdjMatrix_totalEntries (mem : EdgePtr → Edge) (g : Graph)
    (htyped : NoUntypedEdge mem g) :
    totalEntries (g.getAdjMatrix mem) = directedCount mem g + 2 * undirectedCount mem g := by
  have h := (entries_getAdjMatrixLoop mem g.edgeSet [] htyped).length_eq
  rw [totalEntries_eq_length]
  unfold getAdjMatrix directedCount undirectedCount
  rw [h]
  simp only [entries, List.flatMap_nil, List.nil_append]
  exact length_flatMap_expectedEntries mem g.edgeSet htyped

/-- C5, instance: one directed and two undirected edges give five entries. -/
theorem getAdjMatrix_totalEntries_witness :
    NoUntypedEdge shapesMem shapesGraph ∧
      directedCount shapesMem shapesGraph = 1 ∧ undirectedCount shapesMem shapesGraph = 2 ∧
      totalEntries (shapesGraph.getAdjMatrix shapesMem) = 5 :=
  ⟨by decide, by decide, by decide,
    getAdjMatrix_totalEntries shapesMem shapesGraph (by decide)⟩

theorem StdMap.mem_of_find {V : Type} (key : NodePtr) (v : V) :
    ∀ m : StdMap V, StdMap.find m key = some v → (key, v) ∈ m := by
  intro m
  induction m with
  | nil => intro h; simp [StdMap.find] at h
  | cons kv rest ih =>
    obtain ⟨k, w⟩ := kv
    intro h
    by_cases hk : key = k
    · subst hk
      simp only [StdMap.find, if_true, Option.some.injEq] at h
      subst h
      exact List.mem_cons_self _ _
    · simp only [StdMap.find, hk, if_false] at h
      exact List.mem_cons_of_mem _ (ih h)

theorem StdMap.find_isSome_of_mem {V : Type} (key : NodePtr) (v : V) :
    ∀ m : StdMap V, (key, v) ∈ m → (StdMap.find m key).isSome = true := by
  intro m
  induction m with
  | nil => intro h; simp at h
  | cons kv rest ih =>
    obtain ⟨k, w⟩ := kv
    intro h
    by_cases hk : key = k
    · simp [StdMap.find, hk]
    · simp only [StdMap.find, hk, if_false]
      rcases List.mem_cons.mp h with h | h
      · exact absurd (congrArg Prod.fst h) hk
      · exact ih h

/-- Every vector stored in a matrix built by `addElementToAdjMatrix` is non-empty. -/
theorem addElementToAdjMatrix_nonempty (nodeFrom nodeTo : NodePtr) (edge : EdgePtr) :
    ∀ adj : AdjacencyMatrix, (∀ kv ∈ adj, kv.2 ≠ []) →
      ∀ kv ∈ addElementToAdjMatrix adj nodeFrom nodeTo edge, kv.2 ≠ [] := by
  intro adj
  induction adj with
  | nil =>
    intro _ kv hkv
    simp [addElementToAdjMatrix, StdMap.update] at hkv
    subst hkv
    simp
  | cons hd rest ih =>
    obtain ⟨k, v⟩ := hd
    intro h kv hkv
    have hrest : ∀ x ∈ rest, x.2 ≠ [] := fun x hx => h x (List.mem_cons_of_mem _ hx)
    by_cases h1 : nodeFrom < k
    · simp only [addElementToAdjMatrix, StdMap.update, h1, if_true, List.mem_cons] at hkv
      rcases hkv with rfl | rfl | hkv
      · simp
      · exact h _ (List.mem_cons_self _ _)
      · exact hrest _ hkv
    · by_cases h2 : nodeFrom = k
      · subst h2
        simp only [addElementToAdjMatrix, StdMap.update, Nat.lt_irrefl, if_false, if_true,
          List.mem_cons] at hkv
        rcases hkv with rfl | hkv
        · simp
        · exact hrest _ hkv
      · simp only [addElementToAdjMatrix, StdMap.update, h1, h2, if_false,
          List.mem_cons] at hkv
        rcases hkv with rfl | hkv
        · exact h _ (List.mem_cons_self _ _)
        · exact ih hrest kv hkv

theorem getAdjMatrixLoop_nonempty (mem : EdgePtr → Edge) :
    ∀ (l : List EdgePtr) (adj : AdjacencyMatrix), (∀ kv ∈ adj, kv.2 ≠ []) →
      ∀ kv ∈ getAdjMatrixLoop mem l adj, kv.2 ≠ [] := by
  intro l
  induction l with
  | nil => intro adj h; simpa [getAdjMatrixLoop] using h
  | cons p rest ih =>
    intro adj h
    simp only [getAdjMatrixLoop]
    split
    · exact ih _ (addElementToAdjMatrix_nonempty _ _ _ _ h)
    · split
      · exact ih _ (addElementToAdjMatrix_nonempty _ _ _ _
          (addElementToAdjMatrix_nonempty _ _ _ _ h))
      · exact h

theorem mem_entries_iff (adj : AdjacencyMatrix) (x : NodePtr × NodePtr × EdgePtr) :
    x ∈ entries adj ↔ ∃ v, (x.1, v) ∈ adj ∧ (x.2.1, x.2.2) ∈ v := by
  obtain ⟨n, t, e⟩ := x
  simp only [entries, List.mem_flatMap, List.mem_map, Prod.mk.injEq, Prod.exists]
  constructor
  · rintro ⟨k, v, hkv, a, b, hab, rfl, rfl, rfl⟩
    exact ⟨v, hkv, hab⟩
  · rintro ⟨v, hkv, hab⟩
    exact ⟨n, v, hkv, t, e, hab, rfl, rfl, rfl⟩

/-- The keys of the matrix are the `from` components of its entries. -/
theorem getAdjMatrix_key_iff (mem : EdgePtr → Edge) (g : Graph) (n : NodePtr) :
    (StdMap.find (g.getAdjMatrix mem) n).isSome = true ↔
      ∃ t e, (n, t, e) ∈ entries (g.getAdjMatrix mem) := by
  constructor
  · intro h
    obtain ⟨v, hv⟩ := Option.isSome_iff_exists.mp h
    have hmem := StdMap.mem_of_find n v _ hv
    have hne : v ≠ [] :=
      getAdjMatrixLoop_nonempty mem g.edgeSet [] (by simp) (n, v) hmem
    obtain ⟨x, hx⟩ := List.exists_mem_of_ne_nil v hne
    exact ⟨x.1, x.2, (mem_entries_iff _ _).mpr ⟨v, hmem, hx⟩⟩
  · rintro ⟨t, e, h⟩
    obtain ⟨v, hmem, _⟩ := (mem_entries_iff _ _).mp h
    exact StdMap.find_isSome_of_mem n v _ hmem

/-- C6.  With no untyped edge, the entries of `getAdjMatrix` are, as a multiset, one
entry (first, second, e) per directed edge and the two entries (first, second, e),
(second, first, e) per undirected edge; the keys are the `from` components of the
entries; so a node that is the first endpoint of no edge and the second endpoint of
no undirected edge is not a key. -/
theorem getAdjMatrix_entries (mem : EdgePtr → Edge) (g : Graph)
    (htyped : NoUntypedEdge mem g) :
    (entries (g.getAdjMatrix mem)).Perm (g.edgeSet.flatMap (expectedEntries mem)) ∧
    (∀ n, (StdMap.find (g.getAdjMatrix mem) n).isSome = true ↔
      ∃ t e, (n, t, e) ∈ entries (g.getAdjMatrix mem)) ∧
    (∀ n, (∀ p ∈ g.edgeSet, (mem p).getNodePair.1 ≠ n ∧
        ((mem p).isDirected = some false → (mem p).getNodePair.2 ≠ n)) →
      StdMap.find (g.getAdjMatrix mem) n = none) := by
  have hperm : (entries (g.getAdjMatrix mem)).Perm (g.edgeSet.flatMap (expectedEntries mem)) := by
    have h := entries_getAdjMatrixLoop mem g.edgeSet [] htyped
    simpa [getAdjMatrix, entries] using h
  refine ⟨hperm, getAdjMatrix_key_iff mem g, ?_⟩
  intro n hn
  cases hf : StdMap.find (g.getAdjMatrix mem) n with
  | none => rfl
  | some v =>
    exfalso
    have hs : (StdMap.find (g.getAdjMatrix mem) n).isSome = true := by rw [hf]; rfl
    obtain ⟨t, e, hte⟩ := (getAdjMatrix_key_iff mem g n).mp hs
    have hexp := hperm.mem_iff.mp hte
    obtain ⟨p, hp, hpe⟩ := List.mem_flatMap.mp hexp
    obtain ⟨h1, h2⟩ := hn p hp
    cases hd : (mem p).isDirected with
    | none => simp [expectedEntries, hd] at hpe
    | some b =>
      cases b with
      | true =>
        simp only [expectedEntries, hd, List.mem_singleton, Prod.mk.injEq] at hpe
        exact h1 hpe.1.symm
      | false =>
        simp only [expectedEntries, hd, List.mem_cons, Prod.mk.injEq, List.mem_singleton,
          List.not_mem_nil, or_false] at hpe
        rcases hpe with hpe | hpe
        · exact h1 hpe.1.symm
        · exact h2 hd hpe.1.symm

/-- C6, instance: the directed edge 10→20, the undirected edge 20–30 and the undirected
self-loop on 10 give the five expected entries, and 30, the second endpoint of an
undirected edge, is a key. -/
theorem getAdjMatrix_entries_witness :
    NoUntypedEdge shapesMem shapesGraph ∧
    (entries (shapesGraph.getAdjMatrix shapesMem)).Perm
      [(10, 20, 1000), (20, 30, 2000), (30, 20, 2000), (10, 10, 3000), (10, 10, 3000)] ∧
    (∀ n, (StdMap.find (shapesGraph.getAdjMatrix shapesMem) n).isSome = true ↔
      ∃ t e, (n, t, e) ∈ entries (shapesGraph.getAdjMatrix shapesMem)) ∧
    (∀ n, (∀ p ∈ shapesGraph.edgeSet, (shapesMem p).getNodePair.1 ≠ n ∧
        ((shapesMem p).isDirected = some false → (shapesMem p).getNodePair.2 ≠ n)) →
      StdMap.find (shapesGraph.getAdjMatrix shapesMem) n = none) :=
  ⟨by decide, getAdjMatrix_entries shapesMem shapesGraph (by decide)⟩

/-! ## The edge set -/

theorem getEdgeScan_some (mem : EdgePtr → Edge) (edgeId : Nat) (p : EdgePtr) :
    ∀ l : List EdgePtr, getEdgeScan mem edgeId l = some p →
      (mem p).getId = edgeId ∧
        ∃ l1 l2, l = l1 ++ p :: l2 ∧ ∀ q ∈ l1, (mem q).getId ≠ edgeId := by
  intro l
  induction l with
  | nil => intro h; simp [getEdgeScan] at h
  | cons a rest ih =>
    intro h
    by_cases ha : (mem a).getId = edgeId
    · simp only [getEdgeScan, ha, if_true, Option.some.injEq] at h
      subst h
      exact ⟨ha, [], rest, rfl, by simp⟩
    · simp only [getEdgeScan, ha, if_false] at h
      obtain ⟨hid, l1, l2, hl, hl1⟩ := ih h
      refine ⟨hid, a :: l1, l2, by rw [hl]; rfl, ?_⟩
      intro q hq
      rcases List.mem_cons.mp hq with rfl | hq
      · exact ha
      · exact hl1 q hq

theorem getEdgeScan_none (mem : EdgePtr → Edge) (edgeId : Nat) :
    ∀ l : List EdgePtr, getEdgeScan mem edgeId l = none ↔ ∀ q ∈ l, (mem q).getId ≠ edgeId := by
  intro l
  induction l with
  | nil => simp [getEdgeScan]
  | cons a rest ih =>
    by_cases ha : (mem a).getId = edgeId
    · simp [getEdgeScan, ha]
    · simp [getEdgeScan, ha, ih]

/-- C7.  `getEdge(id)` returns an edge iff some edge of the set has that id; the edge
returned is in the set, has that id, and is the first such edge in iteration order;
when no edge has the id the result is the empty optional. -/
theorem getEdge_first_match (mem : EdgePtr → Edge) (g : Graph) (edgeId : Nat) :
    ((∃ p, g.getEdge mem edgeId = some p) ↔ ∃ q ∈ g.edgeSet, (mem q).getId = edgeId) ∧
    (∀ p, g.getEdge mem edgeId = some p →
      p ∈ g.edgeSet ∧ (mem p).getId = edgeId ∧
        ∃ l1 l2, g.edgeSet = l1 ++ p :: l2 ∧ ∀ q ∈ l1, (mem q).getId ≠ edgeId) ∧
    ((∀ q ∈ g.edgeSet, (mem q).getId ≠ edgeId) → g.getEdge mem edgeId = none) := by
  have hsome : ∀ p, g.getEdge mem edgeId = some p →
      p ∈ g.edgeSet ∧ (mem p).getId = edgeId ∧
        ∃ l1 l2, g.edgeSet = l1 ++ p :: l2 ∧ ∀ q ∈ l1, (mem q).getId ≠ edgeId := by
    intro p hp
    obtain ⟨hid, l1, l2, hl, hl1⟩ := getEdgeScan_some mem edgeId p g.edgeSet hp
    exact ⟨by rw [hl]; simp, hid, l1, l2, hl, hl1⟩
  refine ⟨⟨?_, ?_⟩, hsome, fun h => (getEdgeScan_none mem edgeId g.edgeSet).mpr h⟩
  · rintro ⟨p, hp⟩
    exact ⟨p, (hsome p hp).1, (hsome p hp).2.1⟩
  · rintro ⟨q, hq, hid⟩
    cases h : g.getEdge mem edgeId with
    | some p => exact ⟨p, rfl⟩
    | none => exact absurd hid ((getEdgeScan_none mem edgeId g.edgeSet).mp h q hq)

theorem nodup_of_wellFormed (g : Graph) (hwf : g.WellFormed) : g.edgeSet.Nodup :=
  List.Pairwise.imp (fun h => Nat.ne_of_lt h) hwf

/-- C8.  `removeEdge(id)` removes from the edge set exactly the edge that `getEdge(id)`
returns and keeps every other edge, those with the same id included; when no edge has
the id the graph is unchanged.  The result is again a set. -/
theorem removeEdge_erases_getEdge (mem : EdgePtr → Edge) (g : Graph) (edgeId : Nat)
    (hwf : g.WellFormed) :
    (∀ p, g.getEdge mem edgeId = some p →
      (∀ q, q ∈ (g.removeEdge mem edgeId).edgeSet ↔ q ∈ g.edgeSet ∧ q ≠ p) ∧
      (g.removeEdge mem edgeId).edgeSet.length + 1 = g.edgeSet.length) ∧
    (g.getEdge mem edgeId = none → g.removeEdge mem edgeId = g) ∧
    (g.removeEdge mem edgeId).WellFormed := by
  refine ⟨?_, ?_, ?_⟩
  · intro p hp
    have hmem : p ∈ g.edgeSet := by
      obtain ⟨_, l1, l2, hl, _⟩ := getEdgeScan_some mem edgeId p g.edgeSet hp
      rw [hl]
      simp
    have hrem : (g.removeEdge mem edgeId).edgeSet = g.edgeSet.erase p := by
      simp [removeEdge, hp]
    rw [hrem]
    refine ⟨fun q => ?_, ?_⟩
    · rw [(nodup_of_wellFormed g hwf).mem_erase_iff]
      exact and_comm
    · rw [List.length_erase_of_mem hmem]
      have : 0 < g.edgeSet.length := List.length_pos_of_mem hmem
      omega
  · intro hnone
    simp [removeEdge, hnone]
  · cases h : g.getEdge mem edgeId with
    | none => simpa [removeEdge, h] using hwf
    | some p =>
      have hrem : (g.removeEdge mem edgeId).edgeSet = g.edgeSet.erase p := by
        simp [removeEdge, h]
      unfold WellFormed
      rw [hrem]
      exact List.Pairwise.sublist (List.erase_sublist p g.edgeSet) hwf

/-- C8, instance: two edges have id 7; `removeEdge(7)` erases the one at the lower
address and keeps the other. -/
theorem removeEdge_erases_getEdge_witness :
    sameIdGraph.WellFormed ∧ sameIdGraph.getEdge sameIdMem 7 = some 2000 ∧
      (sameIdGraph.removeEdge sameIdMem 7).edgeSet = [1000, 3000] ∧
      (∀ q, q ∈ (sameIdGraph.removeEdge sameIdMem 7).edgeSet ↔
        q ∈ sameIdGraph.edgeSet ∧ q ≠ 2000) :=
  ⟨by decide, by decide, by decide,
    ((removeEdge_erases_getEdge sameIdMem sameIdGraph 7 (by decide)).1 2000 (by decide)).1⟩

theorem mem_setInsert (x p : Nat) : ∀ l : List Nat, p ∈ setInsert l x ↔ p = x ∨ p ∈ l := by
  intro l
  induction l with
  | nil => simp [setInsert]
  | cons y ys ih =>
    by_cases h1 : x < y
    · simp [setInsert, h1]
    · by_cases h2 : x = y
      · subst h2
        simp [setInsert]
      · simp only [setInsert, h1, h2, if_false, List.mem_cons, ih]
        tauto

theorem setInsert_of_mem (x : Nat) :
    ∀ l : List Nat, l.Pairwise (· < ·) → x ∈ l → setInsert l x = l := by
  intro l
  induction l with
  | nil => intro _ h; simp at h
  | cons y ys ih =>
    intro hs hx
    obtain ⟨hy, hys⟩ := List.pairwise_cons.mp hs
    by_cases h2 : x = y
    · subst h2
      simp [setInsert]
    · have hx2 : x ∈ ys := by
        rcases List.mem_cons.mp hx with h | h
        · exact absurd h h2
        · exact h
      have h1 : ¬ x < y := Nat.not_lt.mpr (Nat.le_of_lt (hy x hx2))
      simp only [setInsert, h1, h2, if_false]
      rw [ih hys hx2]

theorem length_setInsert_of_not_mem (x : Nat) :
    ∀ l : List Nat, x ∉ l → (setInsert l x).length = l.length + 1 := by
  intro l
  induction l with
  | nil => intro _; rfl
  | cons y ys ih =>
    intro hx
    have h2 : x ≠ y := fun h => hx (by rw [h]; exact List.mem_cons_self _ _)
    have hx2 : x ∉ ys := fun h => hx (List.mem_cons_of_mem _ h)
    by_cases h1 : x < y
    · simp [setInsert, h1]
    · simp [setInsert, h1, h2, ih hx2]

theorem pairwise_setInsert (x : Nat) :
    ∀ l : List Nat, l.Pairwise (· < ·) → (setInsert l x).Pairwise (· < ·) := by
  intro l
  induction l with
  | nil => intro _; simp [setInsert]
  | cons y ys ih =>
    intro hs
    obtain ⟨hy, hys⟩ := List.pairwise_cons.mp hs
    by_cases h1 : x < y
    · simp only [setInsert, h1, if_true]
      refine List.pairwise_cons.mpr ⟨?_, hs⟩
      intro a ha
      rcases List.mem_cons.mp ha with rfl | ha
      · exact h1
      · exact Nat.lt_trans h1 (hy a ha)
    · by_cases h2 : x = y
      · simpa [setInsert, h2] using hs
      · simp only [setInsert, h1, h2, if_false]
        refine List.pairwise_cons.mpr ⟨?_, ih hys⟩
        intro a ha
        rcases (mem_setInsert x a ys).mp ha with rfl | ha
        · omega
        · exact hy a ha

/-- C9.  `addEdge(e)` makes the edge set the old set united with the reference `e`:
adding a reference already present changes nothing, `addEdge` is idempotent, every
earlier edge stays, and a reference not yet present is added, growing the set by one,
also when the id of its object equals the id of an edge of the set. -/
theorem addEdge_set_union (g : Graph) (e : EdgePtr) (hwf : g.WellFormed) :
    (∀ p, p ∈ (g.addEdge e).edgeSet ↔ p = e ∨ p ∈ g.edgeSet) ∧
    (e ∈ g.edgeSet → g.addEdge e = g) ∧
    (g.addEdge e).addEdge e = g.addEdge e ∧
    (e ∉ g.edgeSet → (g.addEdge e).edgeSet.length = g.edgeSet.length + 1) ∧
    (∀ (mem : EdgePtr → Edge) (q : EdgePtr), q ∈ g.edgeSet → e ∉ g.edgeSet →
      (mem q).getId = (mem e).getId →
      q ∈ (g.addEdge e).edgeSet ∧ e ∈ (g.addEdge e).edgeSet ∧
        (g.addEdge e).edgeSet.length = g.edgeSet.length + 1) ∧
    (g.addEdge e).WellFormed := by
  have hmem : ∀ p, p ∈ (g.addEdge e).edgeSet ↔ p = e ∨ p ∈ g.edgeSet :=
    fun p => mem_setInsert e p g.edgeSet
  have hwf2 : (g.addEdge e).WellFormed := pairwise_setInsert e g.edgeSet hwf
  have hlen : e ∉ g.edgeSet → (g.addEdge e).edgeSet.length = g.edgeSet.length + 1 :=
    length_setInsert_of_not_mem e g.edgeSet
  refine ⟨hmem, ?_, ?_, hlen, ?_, hwf2⟩
  · intro he
    simp only [addEdge]
    rw [setInsert_of_mem e g.edgeSet hwf he]
  · have he : e ∈ (g.addEdge e).edgeSet := (hmem e).mpr (Or.inl rfl)
    show ({ edgeSet := setInsert (g.addEdge e).edgeSet e } : Graph) = g.addEdge e
    rw [setInsert_of_mem e _ hwf2 he]
  · intro mem q hq he _
    exact ⟨(hmem q).mpr (Or.inr hq), (hmem e).mpr (Or.inl rfl), hlen he⟩

/-- C9, instance: the graph holds the edges at 1000 and 2000; adding the edge object
at 3000, whose id 7 is also the id of the edge at 2000, gives a set of three. -/
theorem addEdge_set_union_witness :
    (Graph.mk [1000, 2000]).WellFormed ∧
      (sameIdMem 2000).getId = (sameIdMem 3000).getId ∧
      ((Graph.mk [1000, 2000]).addEdge 3000).edgeSet = [1000, 2000, 3000] ∧
      ((Graph.mk [1000, 2000]).addEdge 3000).addEdge 3000 = (Graph.mk [1000, 2000]).addEdge 3000 :=
  ⟨by decide, by decide, by decide,
    (addEdge_set_union (Graph.mk [1000, 2000]) 3000 (by decide)).2.2.1⟩

/-! ## The slices of `startCoordinated` -/

namespace PARTITIONING

theorem wrapInt_eq (x : Int) (h1 : 0 ≤ x) (h2 : x ≤ INT_MAX) : wrapInt x = x := by
  unfold wrapInt
  unfold INT_MAX at h2
  omega

/-- While no product overflows, pass `t` of the loop gives `[t * S, min ((t + 1) * S, n))`
when `t * S ≤ n` and spawns no worker otherwise. -/
theorem workerSlice_eq (n S : Int) (t : Nat) (hS : 1 ≤ S)
    (hb : ((t : Int) + 1) * S ≤ INT_MAX) :
    workerSlice n S (t : Int) =
      if (t : Int) * S ≤ n then some ((t : Int) * S, min (((t : Int) + 1) * S) n) else none := by
  have ht : (0 : Int) ≤ (t : Int) := Int.ofNat_nonneg t
  have hprod : 0 ≤ (t : Int) * S := Int.mul_nonneg ht (by omega)
  have hle : (t : Int) ≤ (t : Int) * S := le_mul_of_one_le_right ht hS
  have hexp : ((t : Int) + 1) * S = (t : Int) * S + S := by ring
  have e1 : wrapInt ((t : Int) * S) = (t : Int) * S := wrapInt_eq _ hprod (by omega)
  have e2 : wrapInt ((t : Int) + 1) = (t : Int) + 1 := wrapInt_eq _ (by omega) (by omega)
  have e3 : wrapInt (((t : Int) + 1) * S) = ((t : Int) + 1) * S := wrapInt_eq _ (by omega) hb
  unfold workerSlice iStart iEnd
  rw [e1, e2, e3, hexp]
  by_cases h : (t : Int) * S ≤ n
  · have h2 : min ((t : Int) * S + S) n ≥ (t : Int) * S := by omega
    simp only [h, h2, if_true]
  · have h2 : ¬ min ((t : Int) * S + S) n ≥ (t : Int) * S := by omega
    simp only [h, h2, if_false]

/-- The slices of the first `j` passes of the loop: they lie in `[0, n]`, follow one
another without overlap, cover each index below `min (j * S, n)` exactly once and no
other index, and their lengths sum to `min (j * S, n)`. -/
theorem slices_prefix (n S : Int) (hn : 0 ≤ n) (hS : 1 ≤ S) :
    ∀ j : Nat, (j : Int) * S ≤ INT_MAX →
      (∀ s ∈ (List.range j).filterMap (fun t : Nat => workerSlice n S (t : Int)),
        0 ≤ s.1 ∧ s.1 ≤ s.2 ∧ s.2 ≤ min ((j : Int) * S) n) ∧
      ((List.range j).filterMap (fun t : Nat => workerSlice n S (t : Int))).Pairwise
        (fun a b => a.2 ≤ b.1) ∧
      (∀ i : Int, 0 ≤ i → i < n →
        ((List.range j).filterMap (fun t : Nat => workerSlice n S (t : Int))).countP (inSlice i) =
          if i < (j : Int) * S then 1 else 0) ∧
      (((List.range j).filterMap (fun t : Nat => workerSlice n S (t : Int))).map
        (fun s => s.2 - s.1)).sum = min ((j : Int) * S) n := by
  intro j
  induction j with
  | zero =>
    intro _
    refine ⟨by simp, by simp, ?_, ?_⟩
    · intro i hi _
      have : ¬ i < 0 := by omega
      simp [this]
    · simp
      omega
  | succ j ih =>
    intro hb
    have hj : (0 : Int) ≤ (j : Int) := Int.ofNat_nonneg j
    have hprod : 0 ≤ (j : Int) * S := Int.mul_nonneg hj (by omega)
    have hcast : ((j + 1 : Nat) : Int) = (j : Int) + 1 := by push_cast; rfl
    have hexp : ((j : Int) + 1) * S = (j : Int) * S + S := by ring
    rw [hcast] at hb ⊢
    obtain ⟨ih1, ih2, ih3, ih4⟩ := ih (by omega)
    have hslice := workerSlice_eq n S j hS hb
    rw [List.range_succ, List.filterMap_append]
    rw [hexp] at hslice ⊢
    generalize (j : Int) * S = a at *
    generalize (List.range j).filterMap (fun t : Nat => workerSlice n S (t : Int)) = L at *
    by_cases h : a ≤ n
    · have hnew : List.filterMap (fun t : Nat => workerSlice n S (t : Int)) [j] =
          [(a, min (a + S) n)] := by
        simp [List.filterMap_cons, hslice, h]
      rw [hnew]
      refine ⟨?_, ?_, ?_, ?_⟩
      · intro s hs
        rcases List.mem_append.mp hs with hs | hs
        · have := ih1 s hs
          omega
        · simp only [List.mem_singleton] at hs
          subst hs
          simp only
          omega
      · refine List.pairwise_append.mpr ⟨ih2, by simp, ?_⟩
        intro x hx y hy
        simp only [List.mem_singleton] at hy
        subst hy
        have := ih1 x hx
        simp only
        omega
      · intro i hi hin
        rw [List.countP_append, ih3 i hi hin]
        by_cases c1 : i < a
        · have c2 : i < a + S := by omega
          have c3 : ¬ a ≤ i := by omega
          simp [inSlice, c1, c2, c3]
        · by_cases c2 : i < a + S
          · have c3 : a ≤ i := by omega
            simp [inSlice, c1, c2, c3, hin]
          · have c3 : a ≤ i := by omega
            simp [inSlice, c1, c2, c3]
      · rw [List.map_append, List.sum_append, ih4]
        simp only [List.map_cons, List.map_nil, List.sum_cons, List.sum_nil]
        omega
    · have hnew : List.filterMap (fun t : Nat => workerSlice n S (t : Int)) [j] = [] := by
        simp [List.filterMap_cons, hslice, h]
      rw [hnew, List.append_nil]
      refine ⟨?_, ih2, ?_, ?_⟩
      · intro s hs
        have := ih1 s hs
        omega
      · intro i hi hin
        rw [ih3 i hi hin]
        have c1 : i < a := by omega
        have c2 : i < a + S := by omega
        simp [c1, c2]
      · rw [ih4]
        omega

/-- C10.  For `n ≥ 0` edges and `processors ≥ 1` threads (with `n + processors` within
the range of `int`, so that no product of the loop overflows), the index ranges of
the workers spawned by `startCoordinated` lie in `[0, n]`, are pairwise disjoint (each
ends before the next begins), every index of `[0, n)` lies in exactly one of them, and
their lengths sum to `n`. -/
theorem startCoordinated_slices_partition (n processors : Int) (hn : 0 ≤ n)
    (ht : 1 ≤ processors) (hint : n + processors ≤ INT_MAX) :
    (∀ s ∈ startCoordinatedSlices n processors, 0 ≤ s.1 ∧ s.1 ≤ s.2 ∧ s.2 ≤ n) ∧
    (startCoordinatedSlices n processors).Pairwise (fun a b => a.2 ≤ b.1) ∧
    (∀ i : Int, 0 ≤ i → i < n →
      (startCoordinatedSlices n processors).countP (inSlice i) = 1) ∧
    ((startCoordinatedSlices n processors).map (fun s => s.2 - s.1)).sum = n := by
  have hq : Int.tdiv n processors = n / processors := Int.tdiv_eq_ediv hn (by omega)
  have hq0 : 0 ≤ n / processors := Int.ediv_nonneg hn (by omega)
  have hq1 : n / processors ≤ n := Int.ediv_le_self _ hn
  have hS : subSize n processors = n / processors + 1 := by
    unfold subSize
    rw [hq]
    exact wrapInt_eq _ (by omega) (by omega)
  have hlt : n < (n / processors + 1) * processors :=
    Int.lt_ediv_add_one_mul_self n (by omega)
  have hle : n / processors * processors ≤ n := Int.ediv_mul_le n (by omega)
  have hP : ((processors.toNat : Nat) : Int) = processors := Int.toNat_of_nonneg (by omega)
  have hexp : (n / processors + 1) * processors = n / processors * processors + processors := by
    ring
  have hcomm : processors * (n / processors + 1) = (n / processors + 1) * processors := by
    ring
  have hbound : ((processors.toNat : Nat) : Int) * (n / processors + 1) ≤ INT_MAX := by
    rw [hP, hcomm, hexp]
    omega
  obtain ⟨h1, h2, h3, h4⟩ :=
    slices_prefix n (n / processors + 1) hn (by omega) processors.toNat hbound
  unfold startCoordinatedSlices
  rw [hS]
  rw [hP, hcomm] at h1 h3 h4
  refine ⟨?_, h2, ?_, ?_⟩
  · intro s hs
    have := h1 s hs
    omega
  · intro i hi hin
    rw [h3 i hi hin]
    have : i < (n / processors + 1) * processors := by omega
    simp [this]
  · rw [h4]
    omega

/-- C10, instance: 10 edges and 3 threads give the slices `[0,4)`, `[4,8)`, `[8,10)`. -/
theorem startCoordinated_slices_partition_witness :
    startCoordinatedSlices 10 3 = [(0, 4), (4, 8), (8, 10)] ∧
    (∀ s ∈ startCoordinatedSlices 10 3, 0 ≤ s.1 ∧ s.1 ≤ s.2 ∧ s.2 ≤ 10) ∧
    (startCoordinatedSlices 10 3).Pairwise (fun a b => a.2 ≤ b.1) ∧
    (∀ i : Int, 0 ≤ i → i < 10 → (startCoordinatedSlices 10 3).countP (inSlice i) = 1) ∧
    ((startCoordinatedSlices 10 3).map (fun s => s.2 - s.1)).sum = 10 :=
  ⟨by decide, startCoordinated_slices_partition 10 3 (by decide) (by decide) (by decide)⟩

end PARTITIONING

/-! ## Nodes and edge classes -/

/-- C11.  Converting a `DirectedWeightedEdge` to an `UndirectedWeightedEdge` and back,
by the conversion operators or by the converting constructors, gives an edge with the
id, the ordered node pair and the weight of the original (it is the original value);
the same holds starting from an `UndirectedWeightedEdge`. -/
theorem weighted_edge_round_trip (id : Nat) (nodePair : NodePtr × NodePtr) (weight : ℚ) :
    (Edge.UndirectedWeightedEdge_to_DirectedWeightedEdge
        (Edge.DirectedWeightedEdge_to_UndirectedWeightedEdge
          (Edge.DirectedWeightedEdge id nodePair weight)) =
      Edge.DirectedWeightedEdge id nodePair weight) ∧
    (Edge.DirectedWeightedEdge_from_UndirectedWeightedEdge
        (Edge.UndirectedWeightedEdge_from_DirectedWeightedEdge
          (Edge.DirectedWeightedEdge id nodePair weight)) =
      Edge.DirectedWeightedEdge id nodePair weight) ∧
    (Edge.DirectedWeightedEdge_to_UndirectedWeightedEdge
        (Edge.UndirectedWeightedEdge_to_DirectedWeightedEdge
          (Edge.UndirectedWeightedEdge id nodePair weight)) =
      Edge.UndirectedWeightedEdge id nodePair weight) ∧
    (Edge.UndirectedWeightedEdge_from_DirectedWeightedEdge
        (Edge.DirectedWeightedEdge_from_UndirectedWeightedEdge
          (Edge.UndirectedWeightedEdge id nodePair weight)) =
      Edge.UndirectedWeightedEdge id nodePair weight) ∧
    (Edge.UndirectedWeightedEdge_to_DirectedWeightedEdge
        (Edge.DirectedWeightedEdge_to_UndirectedWeightedEdge
          (Edge.DirectedWeightedEdge id nodePair weight))).getId = id ∧
    (Edge.UndirectedWeightedEdge_to_DirectedWeightedEdge
        (Edge.DirectedWeightedEdge_to_UndirectedWeightedEdge
          (Edge.DirectedWeightedEdge id nodePair weight))).getNodePair = nodePair ∧
    (Edge.UndirectedWeightedEdge_to_DirectedWeightedEdge
        (Edge.DirectedWeightedEdge_to_UndirectedWeightedEdge
          (Edge.DirectedWeightedEdge id nodePair weight))).getWeight = weight ∧
    (Edge.DirectedWeightedEdge_to_UndirectedWeightedEdge
        (Edge.DirectedWeightedEdge id nodePair weight)).isDirected = some false := by
  refine ⟨rfl, rfl, rfl, rfl, rfl, rfl, rfl, rfl⟩

/-- C12.  Every conversion between edge classes keeps the id and the ordered node pair
of its source and gives an edge with the `isDirected()` and `isWeighted()` values of the
target class; widening to a weighted class gives weight 0 without a weight argument
and exactly the argument otherwise, and a weighted-to-weighted conversion keeps the
weight. -/
theorem conversions_keep_identity :
    Edge.KeepsIdentity Edge.DirectedEdge_from_Edge true false ∧
    Edge.KeepsIdentity Edge.UndirectedEdge_from_Edge false false ∧
    Edge.KeepsIdentity Edge.DirectedEdge_to_UndirectedEdge false false ∧
    Edge.KeepsIdentity Edge.UndirectedEdge_to_DirectedEdge true false ∧
    Edge.KeepsIdentity Edge.DirectedEdge_copy true false ∧
    Edge.KeepsIdentity Edge.UndirectedEdge_copy false false ∧
    Edge.KeepsIdentity Edge.DirectedWeightedEdge_from_DirectedEdge true true ∧
    Edge.KeepsIdentity Edge.DirectedWeightedEdge_from_Edge true true ∧
    Edge.KeepsIdentity Edge.UndirectedWeightedEdge_from_UndirectedEdge false true ∧
    Edge.KeepsIdentity Edge.UndirectedWeightedEdge_from_Edge false true ∧
    Edge.KeepsIdentity Edge.DirectedWeightedEdge_from_UndirectedWeightedEdge true true ∧
    Edge.KeepsIdentity Edge.UndirectedWeightedEdge_from_DirectedWeightedEdge false true ∧
    Edge.KeepsIdentity Edge.DirectedWeightedEdge_to_UndirectedWeightedEdge false true ∧
    Edge.KeepsIdentity Edge.UndirectedWeightedEdge_to_DirectedWeightedEdge true true ∧
    (∀ w : ℚ,
      Edge.KeepsIdentity (fun e => Edge.DirectedWeightedEdge_from_DirectedEdge_weight e w)
        true true ∧
      Edge.KeepsIdentity (fun e => Edge.DirectedWeightedEdge_from_Edge_weight e w) true true ∧
      Edge.KeepsIdentity (fun e => Edge.UndirectedWeightedEdge_from_UndirectedEdge_weight e w)
        false true ∧
      Edge.KeepsIdentity (fun e => Edge.UndirectedWeightedEdge_from_Edge_weight e w)
        false true) ∧
    (∀ e : Edge,
      (Edge.DirectedWeightedEdge_from_DirectedEdge e).getWeight = 0 ∧
      (Edge.DirectedWeightedEdge_from_Edge e).getWeight = 0 ∧
      (Edge.UndirectedWeightedEdge_from_UndirectedEdge e).getWeight = 0 ∧
      (Edge.UndirectedWeightedEdge_from_Edge e).getWeight = 0) ∧
    (∀ (e : Edge) (w : ℚ),
      (Edge.DirectedWeightedEdge_from_DirectedEdge_weight e w).getWeight = w ∧
      (Edge.DirectedWeightedEdge_from_Edge_weight e w).getWeight = w ∧
      (Edge.UndirectedWeightedEdge_from_UndirectedEdge_weight e w).getWeight = w ∧
      (Edge.UndirectedWeightedEdge_from_Edge_weight e w).getWeight = w) ∧
    (∀ e : Edge,
      (Edge.DirectedWeightedEdge_from_UndirectedWeightedEdge e).getWeight = e.getWeight ∧
      (Edge.UndirectedWeightedEdge_from_DirectedWeightedEdge e).getWeight = e.getWeight ∧
      (Edge.DirectedWeightedEdge_to_UndirectedWeightedEdge e).getWeight = e.getWeight ∧
      (Edge.UndirectedWeightedEdge_to_DirectedWeightedEdge e).getWeight = e.getWeight) := by
  refine ⟨?_, ?_, ?_, ?_, ?_, ?_, ?_, ?_, ?_, ?_, ?_, ?_, ?_, ?_, ?_, ?_, ?_, ?_⟩
  all_goals first
    | (intro e; exact ⟨rfl, rfl, rfl, rfl⟩)
    | (intro w; exact ⟨fun e => ⟨rfl, rfl, rfl, rfl⟩, fun e => ⟨rfl, rfl, rfl, rfl⟩,
        fun e => ⟨rfl, rfl, rfl, rfl⟩, fun e => ⟨rfl, rfl, rfl, rfl⟩⟩)
    | (intro e w; exact ⟨rfl, rfl, rfl, rfl⟩)

/-- C13.  The values of `isDirected()` and `isWeighted()` follow the class table:
`DirectedEdge` (true, false), `UndirectedEdge` (false, false), `DirectedWeightedEdge`
(true, true), `UndirectedWeightedEdge` (false, true); a base `Edge` gives the empty
optional for both, and it is the only class to give an empty optional. -/
theorem variant_table (id : Nat) (nodePair : NodePtr × NodePtr) (weight : ℚ) :
    ((Edge.DirectedEdge id nodePair).isDirected = some true ∧
      (Edge.DirectedEdge id nodePair).isWeighted = some false) ∧
    ((Edge.UndirectedEdge id nodePair).isDirected = some false ∧
      (Edge.UndirectedEdge id nodePair).isWeighted = some false) ∧
    ((Edge.DirectedWeightedEdge id nodePair weight).isDirected = some true ∧
      (Edge.DirectedWeightedEdge id nodePair weight).isWeighted = some true) ∧
    ((Edge.UndirectedWeightedEdge id nodePair weight).isDirected = some false ∧
      (Edge.UndirectedWeightedEdge id nodePair weight).isWeighted = some true) ∧
    ((Edge.base id nodePair).isDirected = none ∧ (Edge.base id nodePair).isWeighted = none) ∧
    (∀ e : Edge, (e.isDirected = none ↔ ∃ i np, e = Edge.base i np) ∧
      (e.isWeighted = none ↔ ∃ i np, e = Edge.base i np)) := by
  refine ⟨⟨rfl, rfl⟩, ⟨rfl, rfl⟩, ⟨rfl, rfl⟩, ⟨rfl, rfl⟩, ⟨rfl, rfl⟩, ?_⟩
  intro e
  cases e <;> simp [Edge.isDirected, Edge.isWeighted]

/-- C14.  For edges of any classes, `a == b` holds iff the ids are equal and the node
pairs are the same pair of addresses, and `a < b` holds iff the id of `a` is below the
id of `b`; neither looks at the class or at the weight. -/
theorem edge_operators (a b : Edge) :
    (Edge.opEq a b = true ↔ a.getId = b.getId ∧ a.getNodePair = b.getNodePair) ∧
    (Edge.opLt a b = true ↔ a.getId < b.getId) ∧
    (∀ (id : Nat) (np : NodePtr × NodePtr) (w : ℚ),
      Edge.opEq (Edge.DirectedWeightedEdge id np w) (Edge.UndirectedEdge id np) = true ∧
      Edge.opEq (Edge.DirectedWeightedEdge id np w) (Edge.DirectedWeightedEdge id np (w + 1)) =
        true) ∧
    (∀ (id : Nat) (n1 n2 : NodePtr), n1 ≠ n2 →
      Edge.opEq (Edge.UndirectedEdge id (n1, n2)) (Edge.UndirectedEdge id (n2, n1)) = false) := by
  refine ⟨?_, ?_, ?_, ?_⟩
  · simp [Edge.opEq]
  · simp [Edge.opLt]
  · intro id np w
    simp [Edge.opEq, Edge.getId, Edge.getNodePair]
  · intro id n1 n2 h
    simp [Edge.opEq, Edge.getId, Edge.getNodePair, h]

/-- C15.  For nodes, `a == b` holds iff the ids and the data are equal, so nodes built
from the same id and data are equal and changing the id or the data breaks equality;
`a < b` holds iff the id of `a` is below the id of `b`, whatever the data. -/
theorem node_operators {T : Type} [DecidableEq T] (a b : Node T) :
    (Node.opEq a b = true ↔ a.getId = b.getId ∧ a.getData = b.getData) ∧
    (Node.opLt a b = true ↔ a.getId < b.getId) ∧
    (∀ (id : Nat) (data : T), Node.opEq (Node.mk id data) (Node.mk id data) = true) ∧
    (∀ (id id2 : Nat) (data : T), id ≠ id2 →
      Node.opEq (Node.mk id data) (Node.mk id2 data) = false) ∧
    (∀ (id : Nat) (data data2 : T), data ≠ data2 →
      Node.opEq (Node.mk id data) (Node.mk id data2) = false) ∧
    (∀ (id id2 : Nat) (data data2 : T),
      Node.opLt (Node.mk id data) (Node.mk id2 data2) = decide (id < id2)) := by
  refine ⟨?_, ?_, ?_, ?_, ?_, ?_⟩
  · simp [Node.opEq, Node.getId, Node.getData]
  · simp [Node.opLt, Node.getId]
  · intro id data
    simp [Node.opEq]
  · intro id id2 data h
    simp [Node.opEq, h]
  · intro id data data2 h
    simp [Node.opEq, h]
  · intro id id2 data data2
    rfl

/-! ## The constructor of `Partitioner` -/

namespace PARTITIONING

theorem weightSum_foldl (NEGLIGIBLE_WEIGHT : ℚ) (mem : EdgePtr → Edge) :
    ∀ (dataset : List EdgePtr) (acc : ℚ),
      dataset.foldl
        (fun weight_sum edge_it =>
          weight_sum +
            (if (mem edge_it).isWeighted = some true then (mem edge_it).getWeight
             else NEGLIGIBLE_WEIGHT))
        acc = acc + expectedWeightSum NEGLIGIBLE_WEIGHT mem dataset := by
  intro dataset
  induction dataset with
  | nil => intro acc; simp [expectedWeightSum]
  | cons p rest ih =>
    intro acc
    rw [List.foldl_cons, ih]
    by_cases h : (mem p).isWeighted = some true
    · simp [expectedWeightSum, h]
      ring
    · simp [expectedWeightSum, h]
      ring

/-- C16.  The `weight_sum` of the WB_LIBRA precomputation is the sum of `getWeight()`
over the weighted edges of the dataset plus `NEGLIGIBLE_WEIGHT` for each edge that is
not weighted; for a dataset of `n` edges none of which is weighted it is
`n * NEGLIGIBLE_WEIGHT`. -/
theorem weightSum_eq (NEGLIGIBLE_WEIGHT : ℚ) (mem : EdgePtr → Edge) (dataset : List EdgePtr) :
    weightSum NEGLIGIBLE_WEIGHT mem dataset = expectedWeightSum NEGLIGIBLE_WEIGHT mem dataset ∧
    ((∀ p ∈ dataset, (mem p).isWeighted ≠ some true) →
      weightSum NEGLIGIBLE_WEIGHT mem dataset = (dataset.length : ℚ) * NEGLIGIBLE_WEIGHT) := by
  have h1 : weightSum NEGLIGIBLE_WEIGHT mem dataset =
      expectedWeightSum NEGLIGIBLE_WEIGHT mem dataset := by
    unfold weightSum
    rw [weightSum_foldl]
    ring
  refine ⟨h1, ?_⟩
  intro hall
  rw [h1]
  have hf : dataset.filter (fun p => decide ((mem p).isWeighted = some true)) = [] := by
    rw [List.filter_eq_nil_iff]
    intro p hp
    simpa using hall p hp
  have hc : dataset.countP (fun p => !decide ((mem p).isWeighted = some true)) =
      dataset.length := by
    rw [List.countP_eq_length]
    intro p hp
    simpa using hall p hp
  simp [expectedWeightSum, hf, hc]

/-- C17.  With `partitionStategy = WB_LIBRA` the constructor creates the Libra strategy
with the bound computed from `weight_sum`; that bound is
`max(1, param1) * weight_sum / numberOfPartition` when `numberOfPartition > 0` and is 0
when `numberOfPartition = 0`, where the quotient is not evaluated. -/
theorem libra_weight_sum_bound (NEGLIGIBLE_WEIGHT : ℚ) (nodeId : NodePtr → Nat)
    (mem : EdgePtr → Edge) (dataset : List EdgePtr) (G : Globals)
    (hlibra : G.partitionStategy = PartitionAlgorithm.WB_LIBRA) :
    (Partitioner.fromDataset NEGLIGIBLE_WEIGHT nodeId mem dataset G).algorithm =
      some (PartitionStrategy.WeightBalancedLibra G
        (weightSumBound G (weightSum NEGLIGIBLE_WEIGHT mem dataset))
        (verticesDegrees nodeId mem dataset)) ∧
    (0 < G.numberOfPartition →
      weightSumBound G (weightSum NEGLIGIBLE_WEIGHT mem dataset) =
        max 1 G.param1 * weightSum NEGLIGIBLE_WEIGHT mem dataset / (G.numberOfPartition : ℚ)) ∧
    (G.numberOfPartition = 0 →
      weightSumBound G (weightSum NEGLIGIBLE_WEIGHT mem dataset) = 0) := by
  refine ⟨?_, ?_, ?_⟩
  · simp [Partitioner.fromDataset, hlibra]
  · intro hpos
    have hne : G.numberOfPartition ≠ 0 := Nat.pos_iff_ne_zero.mp hpos
    simp [weightSumBound, hne]
  · intro hzero
    simp [weightSumBound, hzero]

/-- C17, instance: three edges of which one is weighted (weight 5), negligible weight
1/1000, `param1 = 3` and 4 partitions give the bound `3 * (5 + 2/1000) / 4`. -/
theorem libra_weight_sum_bound_witness :
    libraGlobals.partitionStategy = PartitionAlgorithm.WB_LIBRA ∧
    weightSum (1 / 1000) shapesMem [1000, 2000, 3000] = 5 + 2 / 1000 ∧
    (Partitioner.fromDataset (1 / 1000) (fun a => a) shapesMem [1000, 2000, 3000]
        libraGlobals).algorithm =
      some (PartitionStrategy.WeightBalancedLibra libraGlobals
        (weightSumBound libraGlobals (weightSum (1 / 1000) shapesMem [1000, 2000, 3000]))
        (verticesDegrees (fun a => a) shapesMem [1000, 2000, 3000])) ∧
    weightSumBound libraGlobals (weightSum (1 / 1000) shapesMem [1000, 2000, 3000]) =
      max 1 libraGlobals.param1 * weightSum (1 / 1000) shapesMem [1000, 2000, 3000] /
        (libraGlobals.numberOfPartition : ℚ) ∧
    weightSumBound libraGlobals (weightSum (1 / 1000) shapesMem [1000, 2000, 3000]) =
      3 * (5 + 2 / 1000) / 4 :=
  ⟨by decide, by decide!,
    (libra_weight_sum_bound (1 / 1000) (fun a => a) shapesMem [1000, 2000, 3000]
      libraGlobals (by decide)).1,
    (libra_weight_sum_bound (1 / 1000) (fun a => a) shapesMem [1000, 2000, 3000]
      libraGlobals (by decide)).2.1 (by decide),
    by decide!⟩

end PARTITIONING

/-! ## Untyped edges -/

/-- The loop of `getAdjMatrix` returns at the first untyped edge: what follows it is
not read. -/
theorem getAdjMatrixLoop_stops (mem : EdgePtr → Edge) (p : EdgePtr) (l2 : List EdgePtr)
    (hp : (mem p).isDirected = none) :
    ∀ (l1 : List EdgePtr) (adj : AdjacencyMatrix),
      (∀ q ∈ l1, (mem q).isDirected ≠ none) →
      getAdjMatrixLoop mem (l1 ++ p :: l2) adj = getAdjMatrixLoop mem l1 adj := by
  intro l1
  induction l1 with
  | nil =>
    intro adj _
    simp [getAdjMatrixLoop, hp]
  | cons q rest ih =>
    intro adj h
    have hrest : ∀ x ∈ rest, (mem x).isDirected ≠ none :=
      fun x hx => h x (List.mem_cons_of_mem _ hx)
    simp only [List.cons_append, getAdjMatrixLoop]
    split
    · exact ih _ hrest
    · split
      · exact ih _ hrest
      · rfl

/-- C18.  When the edge set is `l1 ++ p :: l2` with `p` the first untyped edge,
`getAdjMatrix` returns the matrix built from `l1` alone (the empty matrix when `l1` is
empty): its entries are the full contribution of every edge of `l1`, and no entry
carries `p` or an edge of `l2`. -/
theorem getAdjMatrix_stops_at_untyped (mem : EdgePtr → Edge) (g : Graph)
    (l1 : List EdgePtr) (p : EdgePtr) (l2 : List EdgePtr)
    (hsplit : g.edgeSet = l1 ++ p :: l2)
    (htyped : ∀ q ∈ l1, (mem q).isDirected ≠ none)
    (hp : (mem p).isDirected = none) :
    g.getAdjMatrix mem = Graph.getAdjMatrix mem { edgeSet := l1 } ∧
    (entries (g.getAdjMatrix mem)).Perm (l1.flatMap (expectedEntries mem)) ∧
    (l1 = [] → g.getAdjMatrix mem = []) ∧
    (∀ x ∈ entries (g.getAdjMatrix mem), x.2.2 ∈ l1) ∧
    (g.WellFormed → ∀ x ∈ entries (g.getAdjMatrix mem), x.2.2 ≠ p ∧ x.2.2 ∉ l2) := by
  have heq : g.getAdjMatrix mem = Graph.getAdjMatrix mem { edgeSet := l1 } := by
    unfold getAdjMatrix
    rw [hsplit]
    exact getAdjMatrixLoop_stops mem p l2 hp l1 [] htyped
  have hperm : (entries (g.getAdjMatrix mem)).Perm (l1.flatMap (expectedEntries mem)) := by
    rw [heq]
    have h := entries_getAdjMatrixLoop mem l1 [] htyped
    simpa [getAdjMatrix, entries] using h
  have hmem : ∀ x ∈ entries (g.getAdjMatrix mem), x.2.2 ∈ l1 := by
    intro x hx
    obtain ⟨q, hq, hxq⟩ := List.mem_flatMap.mp (hperm.mem_iff.mp hx)
    have hx2 : x.2.2 = q := by
      cases hd : (mem q).isDirected with
      | none => simp [expectedEntries, hd] at hxq
      | some b =>
        cases b with
        | true =>
          simp only [expectedEntries, hd, List.mem_singleton] at hxq
          rw [hxq]
        | false =>
          simp only [expectedEntries, hd, List.mem_cons, List.mem_singleton,
            List.not_mem_nil, or_false] at hxq
          rcases hxq with h | h <;> rw [h]
    rw [hx2]
    exact hq
  refine ⟨heq, hperm, ?_, hmem, ?_⟩
  · intro hnil
    rw [heq, hnil]
    rfl
  · intro hwf x hx
    have hnd : (l1 ++ p :: l2).Nodup := by
      have := nodup_of_wellFormed g hwf
      rwa [hsplit] at this
    have hdis := (List.nodup_append.mp hnd).2.2
    have hx1 := hmem x hx
    constructor
    · intro h
      exact hdis hx1 (by rw [h]; exact List.mem_cons_self _ _)
    · intro h
      exact hdis hx1 (List.mem_cons_of_mem _ h)

/-- C18, instance: an undirected weighted edge, then an untyped edge, then a directed
weighted edge: the matrix has the two entries of the first edge only. -/
theorem getAdjMatrix_stops_at_untyped_witness :
    untypedGraph.edgeSet = [1000] ++ 2000 :: [3000] ∧
    (untypedMem 2000).isDirected = none ∧
    untypedGraph.getAdjMatrix untypedMem = [(10, [(20, 1000)]), (20, [(10, 1000)])] ∧
    (∀ x ∈ entries (untypedGraph.getAdjMatrix untypedMem), x.2.2 ∈ [1000]) :=
  ⟨by decide, by decide, by decide,
    (getAdjMatrix_stops_at_untyped untypedMem untypedGraph [1000] 2000 [3000]
      (by decide) (by decide) (by decide)).2.2.2.1⟩

/-- A `return` from inside the `for` loop of `dijkstra` carries `ERR_NO_WEIGHTED_EDGE`:
in the closed class hierarchy a weighted edge is directed or undirected. -/
theorem relaxAll_inl (mem : EdgePtr → Edge) (currentDist : ℚ) (r : DijkstraResult) :
    ∀ (l : List (NodePtr × EdgePtr)) (dist : StdMap ℚ) (pq : PriorityQueue),
      relaxAll mem currentDist l dist pq = .inl r →
      r = { success := false, errorMessage := ERR_NO_WEIGHTED_EDGE, result := INF_DOUBLE } := by
  intro l
  induction l with
  | nil => intro dist pq h; simp [relaxAll] at h
  | cons elem rest ih =>
    intro dist pq h
    by_cases hw : (mem elem.2).isWeighted = some true
    · rcases Edge.isDirected_of_isWeighted _ hw with hd | hd
      · simp only [relaxAll, hw, hd, if_true] at h
        exact ih _ _ h
      · simp only [relaxAll, hw, hd, if_true] at h
        simp only [show (some false = some true) = False by simp, if_false] at h
        exact ih _ _ h
    · simp only [relaxAll, hw, if_false, Sum.inl.injEq] at h
      exact h.symm

theorem dijkstraLoop_returned (mem : EdgePtr → Edge) (adj : AdjacencyMatrix)
    (r : DijkstraResult) :
    ∀ (fuel : Nat) (dist : StdMap ℚ) (pq : PriorityQueue),
      dijkstraLoop mem adj fuel dist pq = some (.returned r) →
      r = { success := false, errorMessage := ERR_NO_WEIGHTED_EDGE, result := INF_DOUBLE } := by
  intro fuel
  induction fuel with
  | zero =>
    intro dist pq h
    cases pq with
    | nil => rw [dijkstraLoop_nil] at h; simp at h
    | cons top pq => simp [dijkstraLoop] at h
  | succ n ih =>
    intro dist pq h
    cases pq with
    | nil => rw [dijkstraLoop_nil] at h; simp at h
    | cons top pq =>
      simp only [dijkstraLoop] at h
      cases hf : StdMap.find adj top.2 with
      | none => rw [hf] at h; simp at h
      | some l =>
        rw [hf] at h
        simp only at h
        cases hr : relaxAll mem top.1 l dist pq with
        | inl res =>
          rw [hr] at h
          simp only [Option.some.injEq, LoopExit.returned.injEq] at h
          subst h
          exact relaxAll_inl mem top.1 res l dist pq hr
        | inr s => rw [hr] at h; exact ih _ _ h

/-- The messages `dijkstra` can return: that of an unweighted edge, that of an
unreachable target, or none. -/
theorem dijkstra_errorMessage (mem : EdgePtr → Edge) (g : Graph) (fuel : Nat)
    (source target : NodePtr) (r : DijkstraResult)
    (h : dijkstra mem g fuel source target = some (.returned r)) :
    r.errorMessage = ERR_NO_WEIGHTED_EDGE ∨ r.errorMessage = "" ∨
      r.errorMessage = ERR_DIJ_TARGET_NODE_NOT_REACHABLE := by
  unfold dijkstra at h
  simp only at h
  cases hl : dijkstraLoop mem (g.getAdjMatrix mem) fuel
      (initDist (g.getAdjMatrix mem) source) [((0 : ℚ), source)] with
  | none => rw [hl] at h; simp at h
  | some ex =>
    rw [hl] at h
    cases ex with
    | returned r2 =>
      simp only [Option.some.injEq, Outcome.returned.injEq] at h
      subst h
      left
      rw [dijkstraLoop_returned mem _ r2 _ _ _ hl]
    | threw what => simp at h
    | finished dist =>
      simp only [Option.some.injEq, Outcome.returned.injEq] at h
      subst h
      right
      unfold finalCheck
      simp only
      split
      · left; rfl
      · right; rfl

/-- C19 (counterexample).  The graph holds an untyped base edge, yet `dijkstra(A, B)`
returns `success = true` with the distance 1: the violation is not detected. -/
theorem dijkstra_untyped_edge_not_detected :
    (2000 ∈ untypedGraph.edgeSet ∧ (untypedMem 2000).isDirected = none) ∧
    dijkstra untypedMem untypedGraph 2 10 20 =
      some (.returned { success := true, errorMessage := "", result := 1 }) :=
  ⟨⟨by decide, by decide⟩, by decide!⟩

/-- C19 (amended).  When the edge set is `l1 ++ p :: l2` with `p` the first untyped
edge, `dijkstra(source, target)` gives the outcome it gives on the graph of the edges
`l1` alone, and a returned result never carries the message
"Edge are neither Directed neither Undirected". -/
theorem dijkstra_ignores_untyped_suffix (mem : EdgePtr → Edge)
    (l1 : List EdgePtr) (p : EdgePtr) (l2 : List EdgePtr) (fuel : Nat)
    (source target : NodePtr)
    (htyped : ∀ q ∈ l1, (mem q).isDirected ≠ none)
    (hp : (mem p).isDirected = none) :
    dijkstra mem { edgeSet := l1 ++ p :: l2 } fuel source target =
      dijkstra mem { edgeSet := l1 } fuel source target ∧
    (∀ r : DijkstraResult,
      dijkstra mem { edgeSet := l1 ++ p :: l2 } fuel source target = some (.returned r) →
      r.errorMessage ≠ "Edge are neither Directed neither Undirected") := by
  constructor
  · have heq : Graph.getAdjMatrix mem { edgeSet := l1 ++ p :: l2 } =
        Graph.getAdjMatrix mem { edgeSet := l1 } :=
      getAdjMatrixLoop_stops mem p l2 hp l1 [] htyped
    unfold dijkstra
    rw [heq]
  · intro r hr
    rcases dijkstra_errorMessage mem _ fuel source target r hr with h | h | h
    · rw [h]; decide
    · rw [h]; decide
    · rw [h]; decide

/-- C19 (amended), instance: with the untyped edge between two typed ones,
`dijkstra(A, B)` is what it is on the first edge alone. -/
theorem dijkstra_ignores_untyped_suffix_witness :
    dijkstra untypedMem { edgeSet := [1000] ++ 2000 :: [3000] } 2 10 20 =
      dijkstra untypedMem { edgeSet := [1000] } 2 10 20 ∧
    dijkstra untypedMem { edgeSet := [1000] } 2 10 20 =
      some (.returned { success := true, errorMessage := "", result := 1 }) :=
  ⟨(dijkstra_ignores_untyped_suffix untypedMem [1000] 2000 [3000] 2 10 20
      (by decide) (by decide)).1, by decide!⟩

/-! ## The dead branch of `dijkstra` -/

theorem entries_getAdjMatrixLoop_typed (mem : EdgePtr → Edge) :
    ∀ (l : List EdgePtr) (adj : AdjacencyMatrix),
      (∀ x ∈ entries adj, (mem x.2.2).isDirected ≠ none) →
      ∀ x ∈ entries (getAdjMatrixLoop mem l adj), (mem x.2.2).isDirected ≠ none := by
  intro l
  induction l with
  | nil => intro adj h; simpa [getAdjMatrixLoop] using h
  | cons p rest ih =>
    intro adj h
    have hadd : ∀ (a : AdjacencyMatrix) (f t : NodePtr),
        (mem p).isDirected ≠ none →
        (∀ x ∈ entries a, (mem x.2.2).isDirected ≠ none) →
        ∀ x ∈ entries (addElementToAdjMatrix a f t p), (mem x.2.2).isDirected ≠ none := by
      intro a f t hp ha x hx
      rcases List.mem_cons.mp ((entries_addElementToAdjMatrix f t p a).mem_iff.mp hx) with h1 | h1
      · rw [h1]; exact hp
      · exact ha x h1
    simp only [getAdjMatrixLoop]
    split
    · rename_i hd
      exact ih _ (hadd _ _ _ (by rw [hd]; simp) h)
    · split
      · rename_i hd
        have hp : (mem p).isDirected ≠ none := by rw [hd]; simp
        exact ih _ (hadd _ _ _ hp (hadd _ _ _ hp h))
      · exact h

/-- C23.  Every edge that `getAdjMatrix` stores has a definite `isDirected()` value;
a `return` from inside the relaxation loop carries "Edge are not Weighted"; so
`dijkstra` never returns the message "Edge are neither Directed neither Undirected",
whatever the graph (base edges included), the source and the target. -/
theorem dijkstra_never_reports_no_direction (mem : EdgePtr → Edge) (g : Graph) :
    (∀ x ∈ entries (g.getAdjMatrix mem), (mem x.2.2).isDirected ≠ none) ∧
    (∀ (currentDist : ℚ) (l : List (NodePtr × EdgePtr)) (dist : StdMap ℚ)
        (pq : PriorityQueue) (r : DijkstraResult),
      relaxAll mem currentDist l dist pq = .inl r →
      r.errorMessage = "Edge are not Weighted") ∧
    (∀ (fuel : Nat) (source target : NodePtr) (r : DijkstraResult),
      dijkstra mem g fuel source target = some (.returned r) →
      r.errorMessage ≠ "Edge are neither Directed neither Undirected") := by
  refine ⟨?_, ?_, ?_⟩
  · exact entries_getAdjMatrixLoop_typed mem g.edgeSet [] (by simp [entries])
  · intro currentDist l dist pq r h
    rw [relaxAll_inl mem currentDist r l dist pq h]
    rfl
  · intro fuel source target r hr
    rcases dijkstra_errorMessage mem g fuel source target r hr with h | h | h
    · rw [h]; decide
    · rw [h]; decide
    · rw [h]; decide

/-! ## The copy constructor of `Partitioner` -/

namespace PARTITIONING

/-- C24 (the code at the failing input).  With `param1 = 1/2`, one partition and a
dataset whose `weight_sum` is 5, the dataset constructor passes the bound
`max(1, 1/2) * 5 / 1 = 5` to the Libra strategy and the copy constructor passes
`1/2 * 5 / 1 = 5/2`; the degree maps agree. -/
theorem copy_constructor_bound_differs :
    (Partitioner.fromDataset (1 / 1000) (fun a => a) shapesMem [2000] halfGlobals).algorithm =
      some (PartitionStrategy.WeightBalancedLibra halfGlobals 5 [(20, 1), (30, 1)]) ∧
    (Partitioner.copy (1 / 1000) (fun a => a) shapesMem
        (Partitioner.fromDataset (1 / 1000) (fun a => a) shapesMem [2000] halfGlobals)).algorithm =
      some (PartitionStrategy.WeightBalancedLibra halfGlobals (5 / 2) [(20, 1), (30, 1)]) := by
  constructor <;> decide!

end PARTITIONING

/-! ## The slice size and the empty slices of `startCoordinated` -/

namespace PARTITIONING

theorem subSize_eq (n processors : Int) (hn : 0 ≤ n) (ht : 1 ≤ processors)
    (hint : n < INT_MAX) : subSize n processors = n / processors + 1 := by
  have hq : Int.tdiv n processors = n / processors := Int.tdiv_eq_ediv hn (by omega)
  have hq0 : 0 ≤ n / processors := Int.ediv_nonneg hn (by omega)
  have hq1 : n / processors ≤ n := Int.ediv_le_self _ hn
  unfold subSize
  rw [hq]
  exact wrapInt_eq _ (by omega) (by omega)

/-- C25 (counterexample).  For 4 edges and 2 threads the slice size is 3, while
`ceil(4 / 2)` is 2. -/
theorem subSize_not_ceil :
    subSize 4 2 = 3 ∧ ⌈((4 : Int) : ℚ) / ((2 : Int) : ℚ)⌉ = 2 := by
  refine ⟨by decide, ?_⟩
  rw [Int.ceil_eq_iff]
  norm_num

/-- C25 (amended).  For `n ≥ 0` edges (below `INT_MAX`) and `threads ≥ 1`, the slice
size of `startCoordinated` is `floor(n / threads) + 1`: it equals `ceil(n / threads)`
when `threads` does not divide `n`, and exceeds it by one when `threads` divides `n`. -/
theorem subSize_floor_succ (n threads : Int) (hn : 0 ≤ n) (ht : 1 ≤ threads)
    (hint : n < INT_MAX) :
    subSize n threads = ⌊(n : ℚ) / (threads : ℚ)⌋ + 1 ∧
    (¬ threads ∣ n → subSize n threads = ⌈(n : ℚ) / (threads : ℚ)⌉) ∧
    (threads ∣ n → subSize n threads = ⌈(n : ℚ) / (threads : ℚ)⌉ + 1) := by
  have hS := subSize_eq n threads hn ht hint
  have hpos : (0 : ℚ) < (threads : ℚ) := by exact_mod_cast (by omega : (0 : Int) < threads)
  have hdiv : threads * (n / threads) + n % threads = n := Int.ediv_add_emod n threads
  have hr0 : 0 ≤ n % threads := Int.emod_nonneg n (by omega)
  have hr1 : n % threads < threads := Int.emod_lt_of_pos n (by omega)
  have hdivq : (threads : ℚ) * ((n / threads : Int) : ℚ) + ((n % threads : Int) : ℚ) = (n : ℚ) := by
    exact_mod_cast hdiv
  have hr0q : (0 : ℚ) ≤ ((n % threads : Int) : ℚ) := by exact_mod_cast hr0
  have hr1q : ((n % threads : Int) : ℚ) < (threads : ℚ) := by exact_mod_cast hr1
  refine ⟨?_, ?_, ?_⟩
  · rw [hS]
    congr 1
    symm
    rw [Int.floor_eq_iff]
    constructor
    · rw [le_div_iff₀ hpos]
      linarith
    · rw [div_lt_iff₀ hpos]
      linarith
  · intro hnd
    have hr : n % threads ≠ 0 := fun h => hnd (Int.dvd_of_emod_eq_zero h)
    have hrpos : (0 : ℚ) < ((n % threads : Int) : ℚ) := by
      have : 0 < n % threads := by omega
      exact_mod_cast this
    rw [hS]
    symm
    rw [Int.ceil_eq_iff]
    constructor
    · rw [lt_div_iff₀ hpos]
      push_cast
      linarith
    · rw [div_le_iff₀ hpos]
      push_cast
      linarith
  · intro hd
    have hr : n % threads = 0 := Int.emod_eq_zero_of_dvd hd
    have hrq : ((n % threads : Int) : ℚ) = 0 := by exact_mod_cast hr
    rw [hS]
    have hc : ⌈(n : ℚ) / (threads : ℚ)⌉ = n / threads := by
      rw [Int.ceil_eq_iff]
      constructor
      · rw [lt_div_iff₀ hpos]
        linarith
      · rw [div_le_iff₀ hpos]
        linarith
    rw [hc]

/-- C25 (amended), instance: 10 edges and 3 threads give slice size `4 = ceil(10/3)`,
and 4 edges and 2 threads give `3 = ceil(4/2) + 1`. -/
theorem subSize_floor_succ_witness :
    subSize 10 3 = 4 ∧ subSize 10 3 = ⌈((10 : Int) : ℚ) / ((3 : Int) : ℚ)⌉ ∧
    subSize 4 2 = ⌈((4 : Int) : ℚ) / ((2 : Int) : ℚ)⌉ + 1 :=
  ⟨by decide,
    (subSize_floor_succ 10 3 (by decide) (by decide) (by decide)).2.1 (by decide),
    (subSize_floor_succ 4 2 (by decide) (by decide) (by decide)).2.2 (by decide)⟩

/-- With no edge, the passes after the first spawn no worker. -/
theorem slices_zero (k : Nat) (hk : ((k : Int) + 1) ≤ INT_MAX) :
    (List.range (k + 1)).filterMap (fun t : Nat => workerSlice 0 1 (t : Int)) = [(0, 0)] := by
  induction k with
  | zero => decide
  | succ k ih =>
    have hprev : ((k : Int) + 1) ≤ INT_MAX := by push_cast at hk; omega
    have hb : (((k + 1 : Nat) : Int) + 1) * 1 ≤ INT_MAX := by push_cast at hk ⊢; omega
    have hlast := workerSlice_eq 0 1 (k + 1) (le_refl 1) hb
    have hnot : ¬ (((k + 1 : Nat) : Int) * 1 ≤ 0) := by push_cast; omega
    rw [if_neg hnot] at hlast
    have hlast2 : workerSlice 0 1 ((k : Int) + 1) = none := by
      have h := hlast
      push_cast at h
      exact h
    rw [List.range_succ, List.filterMap_append, ih hprev]
    simp [List.filterMap_cons, hlast2]

/-- C26 (counterexample).  With no edge and one thread a worker is spawned, for the
empty slice `[0, 0)`, in which `iStart < iEnd` fails. -/
theorem empty_slice_spawned :
    startCoordinatedSlices 0 1 = [(0, 0)] ∧ ¬ ((0 : Int) < 0) := by
  constructor <;> decide

/-- C26 (amended).  For `n ≥ 0` edges and `threads ≥ 1` (with `n + threads` within the
range of `int`), a worker is spawned exactly for the passes `t < threads` with
`t * subSize ≤ n`, with the slice `[t * subSize, min ((t + 1) * subSize, n))`; every
slice of a worker satisfies `iStart ≤ iEnd`, the slice is empty when
`t * subSize = n`, and with `n = 0` exactly one worker is spawned, for the empty slice
`[0, 0)`. -/
theorem workers_spawned (n threads : Int) (hn : 0 ≤ n) (ht : 1 ≤ threads)
    (hint : n + threads ≤ INT_MAX) :
    (∀ s : Int × Int, s ∈ startCoordinatedSlices n threads ↔
      ∃ t : Nat, (t : Int) < threads ∧ (t : Int) * subSize n threads ≤ n ∧
        s = ((t : Int) * subSize n threads, min (((t : Int) + 1) * subSize n threads) n)) ∧
    (∀ s ∈ startCoordinatedSlices n threads, s.1 ≤ s.2) ∧
    (∀ t : Nat, (t : Int) < threads → (t : Int) * subSize n threads = n →
      (n, n) ∈ startCoordinatedSlices n threads) ∧
    (n = 0 → startCoordinatedSlices n threads = [(0, 0)]) := by
  have hS := subSize_eq n threads hn ht (by omega)
  have hq0 : 0 ≤ n / threads := Int.ediv_nonneg hn (by omega)
  have hle : n / threads * threads ≤ n := Int.ediv_mul_le n (by omega)
  have hP : ((threads.toNat : Nat) : Int) = threads := Int.toNat_of_nonneg (by omega)
  have hS1 : 1 ≤ subSize n threads := by rw [hS]; omega
  have hbound : ∀ t : Nat, (t : Int) < threads →
      ((t : Int) + 1) * subSize n threads ≤ INT_MAX := by
    intro t htt
    have h1 : ((t : Int) + 1) * subSize n threads ≤ threads * subSize n threads :=
      mul_le_mul_of_nonneg_right (by omega) (by omega)
    have h2 : threads * subSize n threads = n / threads * threads + threads := by
      rw [hS]; ring
    omega
  have hmem : ∀ s : Int × Int, s ∈ startCoordinatedSlices n threads ↔
      ∃ t : Nat, (t : Int) < threads ∧ (t : Int) * subSize n threads ≤ n ∧
        s = ((t : Int) * subSize n threads,
          min (((t : Int) + 1) * subSize n threads) n) := by
    intro s
    unfold startCoordinatedSlices
    rw [List.mem_filterMap]
    constructor
    · rintro ⟨t, htr, hts⟩
      have htt : (t : Int) < threads := by
        have := List.mem_range.mp htr
        omega
      rw [workerSlice_eq n _ t hS1 (hbound t htt)] at hts
      by_cases hc : (t : Int) * subSize n threads ≤ n
      · rw [if_pos hc] at hts
        exact ⟨t, htt, hc, (Option.some.inj hts).symm⟩
      · rw [if_neg hc] at hts
        exact absurd hts (by simp)
    · rintro ⟨t, htt, hc, rfl⟩
      refine ⟨t, List.mem_range.mpr (by omega), ?_⟩
      rw [workerSlice_eq n _ t hS1 (hbound t htt), if_pos hc]
  refine ⟨hmem, ?_, ?_, ?_⟩
  · intro s hs
    obtain ⟨t, _, hc, rfl⟩ := (hmem s).mp hs
    have hexp : ((t : Int) + 1) * subSize n threads =
        (t : Int) * subSize n threads + subSize n threads := by ring
    simp only
    rw [hexp]
    omega
  · intro t htt heq
    refine (hmem (n, n)).mpr ⟨t, htt, by omega, ?_⟩
    have hexp : ((t : Int) + 1) * subSize n threads =
        (t : Int) * subSize n threads + subSize n threads := by ring
    rw [hexp, heq]
    have : min (n + subSize n threads) n = n := by omega
    rw [this]
  · intro hzero
    subst hzero
    have hS0 : subSize 0 threads = 1 := by rw [hS]; simp
    unfold startCoordinatedSlices
    rw [hS0]
    obtain ⟨k, hk⟩ : ∃ k : Nat, threads.toNat = k + 1 := ⟨threads.toNat - 1, by omega⟩
    rw [hk]
    exact slices_zero k (by omega)

/-- C26 (amended), instance: 4 edges and 4 threads give slice size 2 and the workers
`[0, 2)`, `[2, 4)` and a third one for the empty slice `[4, 4)`. -/
theorem workers_spawned_witness :
    startCoordinatedSlices 4 4 = [(0, 2), (2, 4), (4, 4)] ∧
    (∀ s ∈ startCoordinatedSlices 4 4, s.1 ≤ s.2) ∧
    (4, 4) ∈ startCoordinatedSlices 4 4 :=
  ⟨by decide, (workers_spawned 4 4 (by decide) (by decide) (by decide)).2.1,
    (workers_spawned 4 4 (by decide) (by decide) (by decide)).2.2.1 2 (by decide) (by decide)⟩

end PARTITIONING

/-! ## The degrees of the Libra precomputation -/

namespace PARTITIONING

/-- One statement `vertices_degrees[key]++`, while the counters stay below `INT_MAX`. -/
theorem degree_increment (deg : StdMap Int) (key : Nat) (K : Int)
    (hord : StdMap.Ordered deg)
    (hbound : ∀ x, 0 ≤ StdMap.read 0 deg x ∧ StdMap.read 0 deg x ≤ K)
    (hpos : ∀ x v, StdMap.find deg x = some v → 0 < v)
    (hK : K + 1 ≤ INT_MAX) :
    StdMap.Ordered (StdMap.update 0 (fun d => wrapInt (d + 1)) deg key) ∧
    (∀ x, StdMap.read 0 (StdMap.update 0 (fun d => wrapInt (d + 1)) deg key) x =
      StdMap.read 0 deg x + if x = key then 1 else 0) ∧
    (∀ x v, StdMap.find (StdMap.update 0 (fun d => wrapInt (d + 1)) deg key) x = some v →
      0 < v) ∧
    StdMap.valueSum (StdMap.update 0 (fun d => wrapInt (d + 1)) deg key) =
      StdMap.valueSum deg + 1 := by
  have hk := hbound key
  have hinc : wrapInt (StdMap.read 0 deg key + 1) = StdMap.read 0 deg key + 1 :=
    wrapInt_eq _ (by omega) (by omega)
  have hself := StdMap.find_update_self 0 (fun d => wrapInt (d + 1)) deg key hord
  have hself2 : StdMap.find (StdMap.update 0 (fun d => wrapInt (d + 1)) deg key) key =
      some (StdMap.read 0 deg key + 1) := by
    rw [hself]
    show some (wrapInt (StdMap.read 0 deg key + 1)) = some (StdMap.read 0 deg key + 1)
    rw [hinc]
  refine ⟨StdMap.ordered_update _ _ _ _ hord, ?_, ?_, ?_⟩
  · intro x
    by_cases hx : x = key
    · subst hx
      simp only [StdMap.read, hself2, Option.getD_some, if_true]
    · simp only [StdMap.read, StdMap.find_update_other 0 _ deg key x hx, hx, if_false,
        add_zero]
  · intro x v hv
    by_cases hx : x = key
    · subst hx
      rw [hself2] at hv
      have := Option.some.inj hv
      omega
    · rw [StdMap.find_update_other 0 _ deg key x hx] at hv
      exact hpos x v hv
  · rw [StdMap.valueSum_update _ key deg hord]
    show StdMap.valueSum deg - StdMap.read 0 deg key + wrapInt (StdMap.read 0 deg key + 1) =
      StdMap.valueSum deg + 1
    rw [hinc]
    ring

/-- The loop over the dataset, from any map of counters `acc`. -/
theorem verticesDegrees_foldl (nodeId : NodePtr → Nat) (mem : EdgePtr → Edge) :
    ∀ (dataset : List EdgePtr) (acc : StdMap Int) (K : Int),
      StdMap.Ordered acc →
      (∀ x, 0 ≤ StdMap.read 0 acc x ∧ StdMap.read 0 acc x ≤ K) →
      (∀ x v, StdMap.find acc x = some v → 0 < v) →
      K + 2 * (dataset.length : Int) ≤ INT_MAX →
      StdMap.Ordered (dataset.foldl
        (fun deg edge_it =>
          StdMap.update 0 (fun d => wrapInt (d + 1))
            (StdMap.update 0 (fun d => wrapInt (d + 1)) deg
              (nodeId (mem edge_it).getNodePair.1))
            (nodeId (mem edge_it).getNodePair.2)) acc) ∧
      (∀ x : Nat, StdMap.read 0 (dataset.foldl
        (fun deg edge_it =>
          StdMap.update 0 (fun d => wrapInt (d + 1))
            (StdMap.update 0 (fun d => wrapInt (d + 1)) deg
              (nodeId (mem edge_it).getNodePair.1))
            (nodeId (mem edge_it).getNodePair.2)) acc) x =
        StdMap.read 0 acc x + (expectedDegree nodeId mem dataset x : Int)) ∧
      (∀ (x : Nat) (v : Int), StdMap.find (dataset.foldl
        (fun deg edge_it =>
          StdMap.update 0 (fun d => wrapInt (d + 1))
            (StdMap.update 0 (fun d => wrapInt (d + 1)) deg
              (nodeId (mem edge_it).getNodePair.1))
            (nodeId (mem edge_it).getNodePair.2)) acc) x = some v → 0 < v) ∧
      StdMap.valueSum (dataset.foldl
        (fun deg edge_it =>
          StdMap.update 0 (fun d => wrapInt (d + 1))
            (StdMap.update 0 (fun d => wrapInt (d + 1)) deg
              (nodeId (mem edge_it).getNodePair.1))
            (nodeId (mem edge_it).getNodePair.2)) acc) =
        StdMap.valueSum acc + 2 * (dataset.length : Int) := by
  intro dataset
  induction dataset with
  | nil =>
    intro acc K hord _ hpos _
    refine ⟨hord, ?_, hpos, ?_⟩
    · intro x
      simp [expectedDegree]
    · simp
  | cons p rest ih =>
    intro acc K hord hbound hpos hK
    have hlen : ((p :: rest).length : Int) = (rest.length : Int) + 1 := by
      simp
    rw [hlen] at hK
    obtain ⟨o1, r1, p1, s1⟩ :=
      degree_increment acc (nodeId (mem p).getNodePair.1) K hord hbound hpos (by omega)
    have hb1 : ∀ x, 0 ≤ StdMap.read 0 (StdMap.update 0 (fun d => wrapInt (d + 1)) acc
          (nodeId (mem p).getNodePair.1)) x ∧
        StdMap.read 0 (StdMap.update 0 (fun d => wrapInt (d + 1)) acc
          (nodeId (mem p).getNodePair.1)) x ≤ K + 1 := by
      intro x
      rw [r1 x]
      have := hbound x
      split <;> omega
    obtain ⟨o2, r2, p2, s2⟩ :=
      degree_increment _ (nodeId (mem p).getNodePair.2) (K + 1) o1 hb1 p1 (by omega)
    have hb2 : ∀ x, 0 ≤ StdMap.read 0 (StdMap.update 0 (fun d => wrapInt (d + 1))
          (StdMap.update 0 (fun d => wrapInt (d + 1)) acc (nodeId (mem p).getNodePair.1))
          (nodeId (mem p).getNodePair.2)) x ∧
        StdMap.read 0 (StdMap.update 0 (fun d => wrapInt (d + 1))
          (StdMap.update 0 (fun d => wrapInt (d + 1)) acc (nodeId (mem p).getNodePair.1))
          (nodeId (mem p).getNodePair.2)) x ≤ K + 2 := by
      intro x
      rw [r2 x]
      have := hb1 x
      split <;> omega
    obtain ⟨o3, r3, p3, s3⟩ := ih _ (K + 2) o2 hb2 p2 (by omega)
    rw [List.foldl_cons]
    refine ⟨o3, ?_, p3, ?_⟩
    · intro x
      rw [r3 x, r2 x, r1 x]
      have hexp : (expectedDegree nodeId mem (p :: rest) x : Int) =
          (if x = nodeId (mem p).getNodePair.1 then 1 else 0) +
            (if x = nodeId (mem p).getNodePair.2 then 1 else 0) +
            (expectedDegree nodeId mem rest x : Int) := by
        simp only [expectedDegree, List.countP_cons, decide_eq_true_eq]
        have e1 : (nodeId (mem p).getNodePair.1 = x) ↔ (x = nodeId (mem p).getNodePair.1) :=
          eq_comm
        have e2 : (nodeId (mem p).getNodePair.2 = x) ↔ (x = nodeId (mem p).getNodePair.2) :=
          eq_comm
        simp only [e1, e2]
        push_cast
        split <;> split <;> ring
      rw [hexp]
      ring
    · rw [s3, s2, s1, hlen]
      ring

/-- C27.  For a dataset of `n` edges (with `2n` within the range of `int`), the map of
degrees holds for every id `x` that occurs as an end-node id the number of edges whose
first end node has id `x` plus the number whose second has, no entry for an id that
occurs in no edge, and degrees that sum to `2n`. -/
theorem verticesDegrees_spec (nodeId : NodePtr → Nat) (mem : EdgePtr → Edge)
    (dataset : List EdgePtr) (hint : 2 * (dataset.length : Int) ≤ INT_MAX) :
    (∀ x : Nat, StdMap.find (verticesDegrees nodeId mem dataset) x =
      if expectedDegree nodeId mem dataset x = 0 then none
      else some (expectedDegree nodeId mem dataset x : Int)) ∧
    StdMap.valueSum (verticesDegrees nodeId mem dataset) = 2 * (dataset.length : Int) := by
  obtain ⟨_, hread, hpos, hsum⟩ :=
    verticesDegrees_foldl nodeId mem dataset [] 0 (by simp [StdMap.Ordered])
      (by intro x; simp [StdMap.read, StdMap.find]) (by intro x v h; simp [StdMap.find] at h)
      (by omega)
  constructor
  · intro x
    have hr := hread x
    simp only [StdMap.read, StdMap.find, Option.getD_none, zero_add] at hr
    cases hf : StdMap.find (verticesDegrees nodeId mem dataset) x with
    | none =>
      have h0 : (expectedDegree nodeId mem dataset x : Int) = 0 := by
        have := hr
        unfold verticesDegrees at hf
        rw [hf] at this
        simpa using this.symm
      have h1 : expectedDegree nodeId mem dataset x = 0 := by exact_mod_cast h0
      rw [if_pos h1]
    | some v =>
      have hv : 0 < v := hpos x v hf
      have h0 : v = (expectedDegree nodeId mem dataset x : Int) := by
        have := hr
        unfold verticesDegrees at hf
        rw [hf] at this
        simpa using this
      have h1 : expectedDegree nodeId mem dataset x ≠ 0 := by
        intro h
        rw [h] at h0
        simp at h0
        omega
      rw [if_neg h1, h0]
  · have := hsum
    simp only [StdMap.valueSum, List.map_nil, List.sum_nil, zero_add] at this
    exact this

/-- C27, instance: the edges 10→20, 20–30 and the self-loop on 10 give the degrees
3 for id 10, 2 for id 20, 1 for id 30, which sum to 6, and no entry for id 40. -/
theorem verticesDegrees_spec_witness :
    verticesDegrees (fun a => a) shapesMem [1000, 2000, 3000] = [(10, 3), (20, 2), (30, 1)] ∧
    StdMap.find (verticesDegrees (fun a => a) shapesMem [1000, 2000, 3000]) 40 = none ∧
    expectedDegree (fun a => a) shapesMem [1000, 2000, 3000] 10 = 3 ∧
    StdMap.valueSum (verticesDegrees (fun a => a) shapesMem [1000, 2000, 3000]) =
      2 * (([1000, 2000, 3000] : List EdgePtr).length : Int) :=
  ⟨by decide, by decide, by decide,
    (verticesDegrees_spec (fun a => a) shapesMem [1000, 2000, 3000] (by decide)).2⟩

end PARTITIONING

/-! ## The run of `dijkstra` on weighted edges with non-negative weights -/

theorem mem_pqPush (x e : ℚ × NodePtr) :
    ∀ pq : PriorityQueue, e ∈ pqPush pq x ↔ e = x ∨ e ∈ pq := by
  intro pq
  induction pq with
  | nil => simp [pqPush]
  | cons y ys ih =>
    by_cases h : pairLt y x = true
    · simp only [pqPush, h, if_true, List.mem_cons, ih]
      tauto
    · simp only [pqPush, h, List.mem_cons]
      simp

theorem length_pqPush (x : ℚ × NodePtr) :
    ∀ pq : PriorityQueue, (pqPush pq x).length = pq.length + 1 := by
  intro pq
  induction pq with
  | nil => simp [pqPush]
  | cons y ys ih =>
    by_cases h : pairLt y x = true
    · simp [pqPush, h, ih]
    · simp [pqPush, h]

/-- What one relaxation does to the distance map and to the queue. -/
theorem relax_spec (currentDist w : ℚ) (y : NodePtr) (dist : StdMap ℚ) (pq : PriorityQueue)
    (hord : StdMap.Ordered dist) :
    StdMap.Ordered (relax currentDist w y dist pq).1 ∧
    (∀ v, v ≠ y → StdMap.find (relax currentDist w y dist pq).1 v = StdMap.find dist v) ∧
    (currentDist + w < StdMap.read 0 dist y →
      StdMap.find (relax currentDist w y dist pq).1 y = some (currentDist + w) ∧
      (relax currentDist w y dist pq).2 = pqPush pq (currentDist + w, y) ∧
      StdMap.valueSum (relax currentDist w y dist pq).1 =
        StdMap.valueSum dist - StdMap.read 0 dist y + (currentDist + w)) ∧
    (¬ currentDist + w < StdMap.read 0 dist y →
      StdMap.find (relax currentDist w y dist pq).1 y = some (StdMap.read 0 dist y) ∧
      (relax currentDist w y dist pq).2 = pq ∧
      StdMap.valueSum (relax currentDist w y dist pq).1 = StdMap.valueSum dist) := by
  have hr1 : (StdMap.index 0 dist y).1 = StdMap.read 0 dist y := StdMap.index_fst 0 dist y hord
  have hr2 : (StdMap.index 0 dist y).2 = StdMap.update 0 id dist y := rfl
  have ho1 : StdMap.Ordered (StdMap.update 0 id dist y) := StdMap.ordered_update _ _ _ _ hord
  have hf1 : StdMap.find (StdMap.update 0 id dist y) y = some (StdMap.read 0 dist y) :=
    StdMap.find_update_self 0 id dist y hord
  have hs1 : StdMap.valueSum (StdMap.update 0 id dist y) = StdMap.valueSum dist := by
    rw [StdMap.valueSum_update id y dist hord]
    simp
  by_cases hfire : currentDist + w < StdMap.read 0 dist y
  · have hrel : relax currentDist w y dist pq =
        (StdMap.update 0 (fun _ => currentDist + w) (StdMap.update 0 id dist y) y,
          pqPush pq ((StdMap.index 0
            (StdMap.update 0 (fun _ => currentDist + w) (StdMap.update 0 id dist y) y) y).1, y)) := by
      simp only [relax, hr1, hr2, hfire, if_true, StdMap.assign]
    have ho2 : StdMap.Ordered
        (StdMap.update 0 (fun _ => currentDist + w) (StdMap.update 0 id dist y) y) :=
      StdMap.ordered_update _ _ _ _ ho1
    have hf2 : StdMap.find
        (StdMap.update 0 (fun _ => currentDist + w) (StdMap.update 0 id dist y) y) y =
        some (currentDist + w) :=
      StdMap.find_update_self 0 (fun _ => currentDist + w) _ y ho1
    have hpush : (StdMap.index 0
        (StdMap.update 0 (fun _ => currentDist + w) (StdMap.update 0 id dist y) y) y).1 =
        currentDist + w := by
      rw [StdMap.index_fst 0 _ y ho2]
      simp [StdMap.read, hf2]
    rw [hrel, hpush]
    refine ⟨ho2, ?_, ?_, ?_⟩
    · intro v hv
      simp only
      rw [StdMap.find_update_other 0 _ _ y v hv, StdMap.find_update_other 0 _ _ y v hv]
    · intro _
      refine ⟨hf2, rfl, ?_⟩
      simp only
      rw [StdMap.valueSum_update _ y _ ho1, hs1]
      simp [StdMap.read, hf1]
    · intro h
      exact absurd hfire h
  · have hrel : relax currentDist w y dist pq = (StdMap.update 0 id dist y, pq) := by
      simp only [relax, hr1, hr2, hfire, if_false]
    rw [hrel]
    refine ⟨ho1, ?_, ?_, ?_⟩
    · intro v hv
      exact StdMap.find_update_other 0 _ _ y v hv
    · intro h
      exact absurd h hfire
    · intro _
      exact ⟨hf1, rfl, hs1⟩

theorem INF_DOUBLE_pos : (0 : ℚ) < INF_DOUBLE := by
  unfold INF_DOUBLE
  norm_num

theorem INF_DOUBLE_isInt (D : Nat) : ∃ z : ℤ, (D : ℚ) * INF_DOUBLE = (z : ℚ) := by
  refine ⟨(D : ℤ) * ((2 ^ 53 - 1) * 2 ^ 971), ?_⟩
  unfold INF_DOUBLE
  simp only [Int.cast_mul, Int.cast_natCast, Int.cast_sub, Int.cast_pow, Int.cast_ofNat,
    Int.cast_one]

theorem ordered_getAdjMatrixLoop (mem : EdgePtr → Edge) :
    ∀ (l : List EdgePtr) (adj : AdjacencyMatrix),
      StdMap.Ordered adj → StdMap.Ordered (getAdjMatrixLoop mem l adj) := by
  intro l
  induction l with
  | nil => intro adj h; simpa [getAdjMatrixLoop] using h
  | cons p rest ih =>
    intro adj h
    simp only [getAdjMatrixLoop]
    split
    · exact ih _ (StdMap.ordered_update _ _ _ _ h)
    · split
      · exact ih _ (StdMap.ordered_update _ _ _ _ (StdMap.ordered_update _ _ _ _ h))
      · exact h

theorem ordered_getAdjMatrix (mem : EdgePtr → Edge) (g : Graph) :
    StdMap.Ordered (g.getAdjMatrix mem) :=
  ordered_getAdjMatrixLoop mem g.edgeSet [] (by simp [StdMap.Ordered])

theorem noUntyped_of_weighted (mem : EdgePtr → Edge) (g : Graph)
    (hW : ∀ p ∈ g.edgeSet, (mem p).isWeighted = some true) : NoUntypedEdge mem g := by
  intro p hp
  rcases Edge.isDirected_of_isWeighted _ (hW p hp) with h | h <;> rw [h] <;> simp

theorem expectedEntries_edge (mem : EdgePtr → Edge) (p : EdgePtr)
    (x : NodePtr × NodePtr × EdgePtr) (h : x ∈ expectedEntries mem p) : x.2.2 = p := by
  cases hd : (mem p).isDirected with
  | none => simp [expectedEntries, hd] at h
  | some b =>
    cases b with
    | true =>
      simp only [expectedEntries, hd, List.mem_singleton] at h
      rw [h]
    | false =>
      simp only [expectedEntries, hd, List.mem_cons, List.mem_singleton,
        List.not_mem_nil, or_false] at h
      rcases h with h | h <;> rw [h]

/-- An adjacency entry of a graph of typed edges is an edge step of the graph. -/
theorem adj_entry (mem : EdgePtr → Edge) (g : Graph) (hT : NoUntypedEdge mem g)
    (u : NodePtr) (l : List (NodePtr × EdgePtr)) (elem : NodePtr × EdgePtr)
    (hl : StdMap.find (g.getAdjMatrix mem) u = some l) (he : elem ∈ l) :
    elem.2 ∈ g.edgeSet ∧ (u, elem.1, elem.2) ∈ expectedEntries mem elem.2 := by
  have hmem := StdMap.mem_of_find u l _ hl
  have hent : (u, elem.1, elem.2) ∈ entries (g.getAdjMatrix mem) :=
    (mem_entries_iff _ _).mpr ⟨l, hmem, he⟩
  have hperm : (entries (g.getAdjMatrix mem)).Perm (g.edgeSet.flatMap (expectedEntries mem)) := by
    have h := entries_getAdjMatrixLoop mem g.edgeSet [] hT
    simpa [getAdjMatrix, entries] using h
  obtain ⟨p, hp, hpe⟩ := List.mem_flatMap.mp (hperm.mem_iff.mp hent)
  have hpp : elem.2 = p := expectedEntries_edge mem p _ hpe
  rw [hpp]
  rw [hpp] at hpe
  exact ⟨hp, hpe⟩

/-- An edge step of a graph of typed edges is an adjacency entry. -/
theorem adj_of_step (mem : EdgePtr → Edge) (g : Graph) (hT : NoUntypedEdge mem g)
    (u v : NodePtr) (w : ℚ) (hs : EdgeStep mem g u v w) :
    ∃ l elem, StdMap.find (g.getAdjMatrix mem) u = some l ∧ elem ∈ l ∧ elem.1 = v ∧
      (mem elem.2).getWeight = w := by
  obtain ⟨p, hp, hw, hpe⟩ := hs
  have hperm : (entries (g.getAdjMatrix mem)).Perm (g.edgeSet.flatMap (expectedEntries mem)) := by
    have h := entries_getAdjMatrixLoop mem g.edgeSet [] hT
    simpa [getAdjMatrix, entries] using h
  have hent : (u, v, p) ∈ entries (g.getAdjMatrix mem) :=
    hperm.mem_iff.mpr (List.mem_flatMap.mpr ⟨p, hp, hpe⟩)
  obtain ⟨l, hmem, hin⟩ := (mem_entries_iff _ _).mp hent
  exact ⟨l, (v, p), StdMap.find_of_mem u l _ (ordered_getAdjMatrix mem g) hmem, hin, rfl, hw⟩

theorem weightDen_pos (mem : EdgePtr → Edge) (g : Graph) : 0 < weightDen mem g := by
  unfold weightDen
  apply List.prod_pos
  intro a ha
  obtain ⟨p, _, rfl⟩ := List.mem_map.mp ha
  exact (mem p).getWeight.den_pos

theorem weight_isInt (mem : EdgePtr → Edge) (g : Graph) (p : EdgePtr) (hp : p ∈ g.edgeSet) :
    ∃ z : ℤ, (weightDen mem g : ℚ) * (mem p).getWeight = (z : ℚ) := by
  have hdvd : (mem p).getWeight.den ∣ weightDen mem g := by
    unfold weightDen
    exact List.dvd_prod (List.mem_map.mpr ⟨p, hp, rfl⟩)
  obtain ⟨k, hk⟩ := hdvd
  refine ⟨(k : ℤ) * (mem p).getWeight.num, ?_⟩
  rw [hk]
  push_cast
  have := Rat.den_mul_eq_num (mem p).getWeight
  calc ((mem p).getWeight.den : ℚ) * (k : ℚ) * (mem p).getWeight
      = (k : ℚ) * (((mem p).getWeight.den : ℚ) * (mem p).getWeight) := by ring
    _ = (k : ℚ) * ((mem p).getWeight.num : ℚ) := by rw [this]

theorem StdMap.read_of_find {V : Type} (dflt : V) (m : StdMap V) (key : NodePtr) (x : V)
    (h : StdMap.find m key = some x) : StdMap.read dflt m key = x := by
  simp [StdMap.read, h]

/-- One relaxation of the `for` loop keeps the invariant, with one entry less to do,
and does not increase the measure. -/
theorem inv_relax (mem : EdgePtr → Edge) (g : Graph) (source u : NodePtr) (d : ℚ)
    (elem0 : NodePtr × EdgePtr) (rest : List (NodePtr × EdgePtr))
    (dist : StdMap ℚ) (pq : PriorityQueue) (M : ℚ)
    (hinv : DijkstraInv mem g source u d (elem0 :: rest) dist pq)
    (hwalk : Walk mem g source u d) (hd0 : 0 ≤ d)
    (hdint : ∃ z : ℤ, (weightDen mem g : ℚ) * d = (z : ℚ))
    (hstep : EdgeStep mem g u elem0.1 (mem elem0.2).getWeight)
    (hw0 : 0 ≤ (mem elem0.2).getWeight)
    (hwint : ∃ z : ℤ, (weightDen mem g : ℚ) * (mem elem0.2).getWeight = (z : ℚ))
    (hM : loopMeasure mem g dist pq ≤ M) :
    DijkstraInv mem g source u d rest
      (relax d (mem elem0.2).getWeight elem0.1 dist pq).1
      (relax d (mem elem0.2).getWeight elem0.1 dist pq).2 ∧
    loopMeasure mem g (relax d (mem elem0.2).getWeight elem0.1 dist pq).1
      (relax d (mem elem0.2).getWeight elem0.1 dist pq).2 ≤ M := by
  obtain ⟨ho, hother, hfire, hnofire⟩ :=
    relax_spec d (mem elem0.2).getWeight elem0.1 dist pq hinv.ordered
  have hDpos : (0 : ℚ) < (weightDen mem g : ℚ) := by
    exact_mod_cast weightDen_pos mem g
  by_cases hf : d + (mem elem0.2).getWeight < StdMap.read 0 dist elem0.1
  · obtain ⟨hfy, hpq, hsum⟩ := hfire hf
    -- the relaxed node has a stored, positive distance, so it is an adjacency key
    have hyfind : ∃ xy, StdMap.find dist elem0.1 = some xy := by
      cases hc : StdMap.find dist elem0.1 with
      | none =>
        simp only [StdMap.read, hc, Option.getD_none] at hf
        linarith
      | some xy => exact ⟨xy, rfl⟩
    obtain ⟨xy, hxy⟩ := hyfind
    have hread : StdMap.read 0 dist elem0.1 = xy := StdMap.read_of_find 0 dist _ xy hxy
    rw [hread] at hf hsum
    obtain ⟨_, hxyINF, hxyint, hxykey, _⟩ := hinv.values _ _ hxy
    have hykey : StdMap.find (g.getAdjMatrix mem) elem0.1 ≠ none := by
      intro hnone
      have := hxykey hnone
      linarith
    have hnewint : ∃ z : ℤ, (weightDen mem g : ℚ) * (d + (mem elem0.2).getWeight) = (z : ℚ) := by
      obtain ⟨z1, hz1⟩ := hdint
      obtain ⟨z2, hz2⟩ := hwint
      exact ⟨z1 + z2, by push_cast; rw [mul_add, hz1, hz2]⟩
    have hnewwalk : Walk mem g source elem0.1 (d + (mem elem0.2).getWeight) :=
      Walk.step hwalk hstep
    have hmono : ∀ z, StdMap.read 0 (relax d (mem elem0.2).getWeight elem0.1 dist pq).1 z ≤
        StdMap.read 0 dist z := by
      intro z
      by_cases hz : z = elem0.1
      · rw [hz, StdMap.read_of_find 0 _ _ _ hfy, hread]
        exact le_of_lt hf
      · simp only [StdMap.read, hother z hz]
        exact le_refl _
    have hcases : ∀ v x, StdMap.find (relax d (mem elem0.2).getWeight elem0.1 dist pq).1 v = some x →
        (v = elem0.1 ∧ x = d + (mem elem0.2).getWeight) ∨ (v ≠ elem0.1 ∧ StdMap.find dist v = some x) := by
      intro v x hv
      by_cases hz : v = elem0.1
      · left
        rw [hz, hfy] at hv
        exact ⟨hz, (Option.some.inj hv).symm⟩
      · right
        rw [hother v hz] at hv
        exact ⟨hz, hv⟩
    constructor
    · refine ⟨ho, ?_, ?_, ?_, ?_, ?_⟩
      · intro v hv
        by_cases hz : v = elem0.1
        · rw [hz, hfy]; rfl
        · rw [hother v hz]; exact hinv.keys v hv
      · intro v x hv
        rcases hcases v x hv with ⟨hz, hx⟩ | ⟨_, hold⟩
        · subst hz
          subst hx
          refine ⟨by linarith, by linarith, hnewint, ?_, ?_⟩
          · intro hnone; exact absurd hnone hykey
          · intro _ _; exact hnewwalk
        · exact hinv.values v x hold
      · intro e he
        rw [hpq] at he
        rcases (mem_pqPush _ e pq).mp he with h | h
        · rw [h]
          refine ⟨?_, by simp only; linarith, hnewint, hnewwalk⟩
          simp only
          cases hc : StdMap.find (g.getAdjMatrix mem) elem0.1 with
          | none => exact absurd hc hykey
          | some l => rfl
        · exact hinv.queue e h
      · intro v x l hv hx hl elem he
        rcases hcases v x hv with ⟨hz, hxe⟩ | ⟨_, hold⟩
        · left
          rw [hpq, hz, hxe]
          exact (mem_pqPush _ _ pq).mpr (Or.inl rfl)
        · rcases hinv.relaxed v x l hold hx hl elem he with h | h | ⟨h1, h2, h3⟩
          · left
            rw [hpq]
            exact (mem_pqPush _ _ pq).mpr (Or.inr h)
          · right; left
            exact le_trans (hmono elem.1) h
          · rcases List.mem_cons.mp h3 with h4 | h4
            · right; left
              rw [h4, StdMap.read_of_find 0 _ _ _ hfy, h2]
            · right; right
              exact ⟨h1, h2, h4⟩
      · exact le_trans (hmono source) hinv.source_zero
    · -- the measure: the sum of distances drops by at least `1 / weightDen`
      have hdrop : 1 ≤ (weightDen mem g : ℚ) * (xy - (d + (mem elem0.2).getWeight)) := by
        obtain ⟨z1, hz1⟩ := hxyint
        obtain ⟨z2, hz2⟩ := hnewint
        have hlt : (weightDen mem g : ℚ) * (d + (mem elem0.2).getWeight) <
            (weightDen mem g : ℚ) * xy := mul_lt_mul_of_pos_left hf hDpos
        rw [hz1, hz2] at hlt
        have hlt2 : z2 < z1 := by exact_mod_cast hlt
        have hle : z2 + 1 ≤ z1 := by omega
        have hleq : ((z2 + 1 : ℤ) : ℚ) ≤ (z1 : ℚ) := by exact_mod_cast hle
        rw [mul_sub, hz1, hz2]
        push_cast at hleq
        linarith
      unfold loopMeasure at hM ⊢
      rw [hsum, hpq, length_pqPush]
      push_cast
      nlinarith
  · obtain ⟨hfy, hpq, hsum⟩ := hnofire hf
    have hle : StdMap.read 0 dist elem0.1 ≤ d + (mem elem0.2).getWeight := not_lt.mp hf
    have hsame : ∀ z, StdMap.read 0 (relax d (mem elem0.2).getWeight elem0.1 dist pq).1 z =
        StdMap.read 0 dist z := by
      intro z
      by_cases hz : z = elem0.1
      · rw [hz, StdMap.read_of_find 0 _ _ _ hfy]
      · simp only [StdMap.read, hother z hz]
    have hcases : ∀ v x, StdMap.find (relax d (mem elem0.2).getWeight elem0.1 dist pq).1 v = some x →
        StdMap.find dist v = some x ∨ (v = elem0.1 ∧ StdMap.find dist v = none ∧ x = 0) := by
      intro v x hv
      by_cases hz : v = elem0.1
      · rw [hz, hfy] at hv
        have hx := (Option.some.inj hv).symm
        cases hc : StdMap.find dist elem0.1 with
        | none =>
          right
          refine ⟨hz, by rw [hz]; exact hc, ?_⟩
          rw [hx]
          simp [StdMap.read, hc]
        | some xy =>
          left
          rw [hz, hx]
          simp [StdMap.read, hc]
      · left
        rw [hother v hz] at hv
        exact hv
    have hnokey : ∀ v, StdMap.find dist v = none → StdMap.find (g.getAdjMatrix mem) v = none := by
      intro v hv
      cases hc : StdMap.find (g.getAdjMatrix mem) v with
      | none => rfl
      | some l =>
        have := hinv.keys v (by rw [hc]; rfl)
        rw [hv] at this
        exact absurd this (by simp)
    constructor
    · refine ⟨ho, ?_, ?_, ?_, ?_, ?_⟩
      · intro v hv
        by_cases hz : v = elem0.1
        · rw [hz, hfy]; rfl
        · rw [hother v hz]; exact hinv.keys v hv
      · intro v x hv
        rcases hcases v x hv with hold | ⟨_, hnone, hx0⟩
        · exact hinv.values v x hold
        · subst hx0
          refine ⟨le_refl 0, le_of_lt INF_DOUBLE_pos, ⟨0, by simp⟩, fun _ => rfl, ?_⟩
          intro _ hkey
          exact absurd (hnokey v hnone) hkey
      · intro e he
        rw [hpq] at he
        exact hinv.queue e he
      · intro v x l hv hx hl elem he
        have hold : StdMap.find dist v = some x := by
          rcases hcases v x hv with hold | ⟨_, hnone, _⟩
          · exact hold
          · have := hnokey v hnone
            rw [hl] at this
            exact absurd this (by simp)
        rw [hpq, hsame]
        rcases hinv.relaxed v x l hold hx hl elem he with h | h | ⟨h1, h2, h3⟩
        · left; exact h
        · right; left; exact h
        · rcases List.mem_cons.mp h3 with h4 | h4
          · right; left
            rw [h4, h2]
            exact hle
          · right; right
            exact ⟨h1, h2, h4⟩
      · rw [hsame]
        exact hinv.source_zero
    · unfold loopMeasure at hM ⊢
      rw [hsum, hpq]
      exact hM

/-- The `for` loop over the adjacency entries still to do runs to its end, restores
the invariant between iterations and does not increase the measure. -/
theorem relaxAll_inv (mem : EdgePtr → Edge) (g : Graph) (source u : NodePtr) (d : ℚ)
    (hW : ∀ p ∈ g.edgeSet, (mem p).isWeighted = some true)
    (hN : ∀ p ∈ g.edgeSet, 0 ≤ (mem p).getWeight)
    (lu : List (NodePtr × EdgePtr))
    (hlu : StdMap.find (g.getAdjMatrix mem) u = some lu)
    (hwalk : Walk mem g source u d) (hd0 : 0 ≤ d)
    (hdint : ∃ z : ℤ, (weightDen mem g : ℚ) * d = (z : ℚ)) :
    ∀ (todo : List (NodePtr × EdgePtr)) (dist : StdMap ℚ) (pq : PriorityQueue) (M : ℚ),
      (∀ elem ∈ todo, elem ∈ lu) →
      DijkstraInv mem g source u d todo dist pq →
      loopMeasure mem g dist pq ≤ M →
      ∃ dist2 pq2, relaxAll mem d todo dist pq = .inr (dist2, pq2) ∧
        DijkstraInv mem g source u d [] dist2 pq2 ∧ loopMeasure mem g dist2 pq2 ≤ M := by
  intro todo
  induction todo with
  | nil =>
    intro dist pq M _ hinv hM
    exact ⟨dist, pq, rfl, hinv, hM⟩
  | cons elem0 rest ih =>
    intro dist pq M hsub hinv hM
    have hT := noUntyped_of_weighted mem g hW
    have hin : elem0 ∈ lu := hsub elem0 (List.mem_cons_self _ _)
    obtain ⟨hp, hpe⟩ := adj_entry mem g hT u lu elem0 hlu hin
    have hstep : EdgeStep mem g u elem0.1 (mem elem0.2).getWeight := ⟨elem0.2, hp, rfl, hpe⟩
    obtain ⟨hinv2, hM2⟩ := inv_relax mem g source u d elem0 rest dist pq M hinv hwalk hd0 hdint
      hstep (hN _ hp) (weight_isInt mem g _ hp) hM
    have hrest : ∀ elem ∈ rest, elem ∈ lu := fun e he => hsub e (List.mem_cons_of_mem _ he)
    obtain ⟨dist2, pq2, hrun, hinv3, hM3⟩ := ih _ _ M hrest hinv2 hM2
    refine ⟨dist2, pq2, ?_, hinv3, hM3⟩
    have hw := hW _ hp
    rcases Edge.isDirected_of_isWeighted _ hw with hd | hd
    · simp only [relaxAll, hw, hd, if_true]
      exact hrun
    · simp only [relaxAll, hw, hd, if_true]
      simp only [show (some false = some true) = False by simp, if_false]
      exact hrun

theorem valueSum_nonneg (dist : StdMap ℚ) (h : ∀ kv ∈ dist, 0 ≤ kv.2) :
    0 ≤ StdMap.valueSum dist := by
  unfold StdMap.valueSum
  apply List.sum_nonneg
  intro x hx
  obtain ⟨kv, hkv, rfl⟩ := List.mem_map.mp hx
  exact h kv hkv

theorem loopMeasure_ge_length (mem : EdgePtr → Edge) (g : Graph) (source u : NodePtr) (d : ℚ)
    (todo : List (NodePtr × EdgePtr)) (dist : StdMap ℚ) (pq : PriorityQueue)
    (hinv : DijkstraInv mem g source u d todo dist pq) :
    (pq.length : ℚ) ≤ loopMeasure mem g dist pq := by
  have hsum : 0 ≤ StdMap.valueSum dist := by
    apply valueSum_nonneg
    intro kv hkv
    have hf := StdMap.find_of_mem kv.1 kv.2 dist hinv.ordered hkv
    exact (hinv.values _ _ hf).1
  have hD : (0 : ℚ) ≤ (weightDen mem g : ℚ) := by exact_mod_cast Nat.zero_le _
  unfold loopMeasure
  have : 0 ≤ 2 * (weightDen mem g : ℚ) * StdMap.valueSum dist := by positivity
  linarith

/-- The `while` loop ends within `n` iterations when the measure is at most `n`, by
emptying the queue, and the invariant holds at its end. -/
theorem dijkstraLoop_finishes (mem : EdgePtr → Edge) (g : Graph) (source : NodePtr)
    (hW : ∀ p ∈ g.edgeSet, (mem p).isWeighted = some true)
    (hN : ∀ p ∈ g.edgeSet, 0 ≤ (mem p).getWeight) :
    ∀ (n : Nat) (dist : StdMap ℚ) (pq : PriorityQueue) (u : NodePtr) (d : ℚ),
      DijkstraInv mem g source u d [] dist pq →
      loopMeasure mem g dist pq ≤ (n : ℚ) →
      ∃ (dist2 : StdMap ℚ) (u2 : NodePtr) (d2 : ℚ),
        dijkstraLoop mem (g.getAdjMatrix mem) n dist pq = some (.finished dist2) ∧
        DijkstraInv mem g source u2 d2 [] dist2 [] := by
  intro n
  induction n with
  | zero =>
    intro dist pq u d hinv hM
    cases pq with
    | nil => exact ⟨dist, u, d, dijkstraLoop_nil _ _ _ _, hinv⟩
    | cons top rest =>
      have := loopMeasure_ge_length mem g source u d [] dist (top :: rest) hinv
      simp only [List.length_cons] at this
      push_cast at this hM
      have hlen : (0 : ℚ) ≤ (rest.length : ℚ) := by exact_mod_cast Nat.zero_le _
      linarith
  | succ n ih =>
    intro dist pq u d hinv hM
    cases pq with
    | nil => exact ⟨dist, u, d, dijkstraLoop_nil _ _ _ _, hinv⟩
    | cons top rest =>
      obtain ⟨hkey, htop0, htopint, htopwalk⟩ := hinv.queue top (List.mem_cons_self _ _)
      obtain ⟨l, hl⟩ := Option.isSome_iff_exists.mp hkey
      have hinv2 : DijkstraInv mem g source top.2 top.1 l dist rest := by
        refine ⟨hinv.ordered, hinv.keys, hinv.values, ?_, ?_, hinv.source_zero⟩
        · intro e he
          exact hinv.queue e (List.mem_cons_of_mem _ he)
        · intro v x l2 hv hx hl2 elem he
          rcases hinv.relaxed v x l2 hv hx hl2 elem he with h | h | ⟨_, _, h3⟩
          · rcases List.mem_cons.mp h with h4 | h4
            · right; right
              have hv2 : v = top.2 := congrArg Prod.snd h4
              have hx2 : x = top.1 := congrArg Prod.fst h4
              refine ⟨hv2, hx2, ?_⟩
              rw [hv2, hl] at hl2
              rw [Option.some.inj hl2]
              exact he
            · left; exact h4
          · right; left; exact h
          · exact absurd h3 (List.not_mem_nil _)
      have hM2 : loopMeasure mem g dist rest ≤ (n : ℚ) := by
        unfold loopMeasure at hM ⊢
        simp only [List.length_cons] at hM
        push_cast at hM
        linarith
      obtain ⟨dist2, pq2, hrun, hinv3, hM3⟩ :=
        relaxAll_inv mem g source top.2 top.1 hW hN l hl htopwalk htop0 htopint l dist rest
          (n : ℚ) (fun _ h => h) hinv2 hM2
      obtain ⟨dist3, u3, d3, hloop, hinv4⟩ := ih dist2 pq2 top.2 top.1 hinv3 hM3
      refine ⟨dist3, u3, d3, ?_, hinv4⟩
      simp only [dijkstraLoop, hl, hrun]
      exact hloop

/-- The map built by the initialisation loop `dist[elem.first] = INF_DOUBLE`. -/
theorem initFold_spec :
    ∀ (adj : AdjacencyMatrix) (acc : StdMap ℚ), StdMap.Ordered acc →
      StdMap.Ordered (adj.foldl (fun d elem => StdMap.assign 0 d elem.1 INF_DOUBLE) acc) ∧
      ∀ v, StdMap.find (adj.foldl (fun d elem => StdMap.assign 0 d elem.1 INF_DOUBLE) acc) v =
        if (StdMap.find adj v).isSome = true then some INF_DOUBLE else StdMap.find acc v := by
  intro adj
  induction adj with
  | nil =>
    intro acc hacc
    exact ⟨hacc, fun v => by simp [StdMap.find]⟩
  | cons hd rest ih =>
    obtain ⟨k, x⟩ := hd
    intro acc hacc
    have hacc2 : StdMap.Ordered (StdMap.assign 0 acc k INF_DOUBLE) :=
      StdMap.ordered_update _ _ _ _ hacc
    obtain ⟨ho, hf⟩ := ih (StdMap.assign 0 acc k INF_DOUBLE) hacc2
    rw [List.foldl_cons]
    refine ⟨ho, ?_⟩
    intro v
    rw [hf v]
    by_cases hv : v = k
    · subst hv
      have hself : StdMap.find (StdMap.assign 0 acc v INF_DOUBLE) v = some INF_DOUBLE :=
        StdMap.find_update_self 0 _ acc v hacc
      simp [StdMap.find, hself]
    · have hoth : StdMap.find (StdMap.assign 0 acc k INF_DOUBLE) v = StdMap.find acc v :=
        StdMap.find_update_other 0 _ acc k v hv
      simp [StdMap.find, hv, hoth]

/-- The distance map before the loop: 0 for the source, `INF_DOUBLE` for the other
adjacency keys, no entry for the other nodes. -/
theorem initDist_spec (adj : AdjacencyMatrix) (source : NodePtr) :
    StdMap.Ordered (initDist adj source) ∧
    StdMap.find (initDist adj source) source = some 0 ∧
    ∀ v, v ≠ source → StdMap.find (initDist adj source) v =
      if (StdMap.find adj v).isSome = true then some INF_DOUBLE else none := by
  obtain ⟨ho, hf⟩ := initFold_spec adj [] (by simp [StdMap.Ordered])
  refine ⟨StdMap.ordered_update _ _ _ _ ho, ?_, ?_⟩
  · exact StdMap.find_update_self 0 _ _ source ho
  · intro v hv
    have : StdMap.find (initDist adj source) v =
        StdMap.find (adj.foldl (fun d elem => StdMap.assign 0 d elem.1 INF_DOUBLE) []) v :=
      StdMap.find_update_other 0 _ _ source v hv
    rw [this, hf v]
    simp [StdMap.find]

/-- The invariant holds when the loop is entered. -/
theorem inv_init (mem : EdgePtr → Edge) (g : Graph) (source : NodePtr)
    (hsrc : (StdMap.find (g.getAdjMatrix mem) source).isSome = true) :
    DijkstraInv mem g source source 0 [] (initDist (g.getAdjMatrix mem) source)
      [((0 : ℚ), source)] := by
  obtain ⟨ho, hs, hoth⟩ := initDist_spec (g.getAdjMatrix mem) source
  have hcases : ∀ v x, StdMap.find (initDist (g.getAdjMatrix mem) source) v = some x →
      (v = source ∧ x = 0) ∨
        (x = INF_DOUBLE ∧ (StdMap.find (g.getAdjMatrix mem) v).isSome = true) := by
    intro v x hv
    by_cases hvs : v = source
    · left
      rw [hvs, hs] at hv
      exact ⟨hvs, (Option.some.inj hv).symm⟩
    · right
      rw [hoth v hvs] at hv
      by_cases hk : (StdMap.find (g.getAdjMatrix mem) v).isSome = true
      · rw [if_pos hk] at hv
        exact ⟨(Option.some.inj hv).symm, hk⟩
      · rw [if_neg hk] at hv
        exact absurd hv (by simp)
  refine ⟨ho, ?_, ?_, ?_, ?_, ?_⟩
  · intro v hv
    by_cases hvs : v = source
    · rw [hvs, hs]; rfl
    · rw [hoth v hvs, if_pos hv]; rfl
  · intro v x hv
    rcases hcases v x hv with ⟨hvs, hx⟩ | ⟨hx, hk⟩
    · subst hvs
      subst hx
      exact ⟨le_refl 0, le_of_lt INF_DOUBLE_pos, ⟨0, by simp⟩, fun _ => rfl,
        fun _ _ => Walk.nil⟩
    · subst hx
      refine ⟨le_of_lt INF_DOUBLE_pos, le_refl _, INF_DOUBLE_isInt _, ?_, ?_⟩
      · intro hnone
        rw [hnone] at hk
        exact absurd hk (by simp)
      · intro hlt
        exact absurd hlt (lt_irrefl _)
  · intro e he
    rw [List.mem_singleton] at he
    subst he
    exact ⟨hsrc, le_refl 0, ⟨0, by simp⟩, Walk.nil⟩
  · intro v x l hv hx _ elem _
    rcases hcases v x hv with ⟨hvs, hx0⟩ | ⟨hxI, _⟩
    · left
      rw [hvs, hx0]
      exact List.mem_singleton.mpr rfl
    · rw [hxI] at hx
      exact absurd hx (lt_irrefl _)
  · rw [StdMap.read_of_find 0 _ _ _ hs]

/-- The statements after the loop, in terms of the value read for the target. -/
theorem finalCheck_spec (dist : StdMap ℚ) (target : NodePtr) (hord : StdMap.Ordered dist) :
    finalCheck dist target =
      if StdMap.read 0 dist target ≠ INF_DOUBLE then
        { success := true, errorMessage := "", result := StdMap.read 0 dist target }
      else
        { success := false, errorMessage := ERR_DIJ_TARGET_NODE_NOT_REACHABLE, result := -1 } := by
  have h1 : (StdMap.index 0 dist target).1 = StdMap.read 0 dist target :=
    StdMap.index_fst 0 dist target hord
  have ho1 : StdMap.Ordered (StdMap.update 0 id dist target) :=
    StdMap.ordered_update _ _ _ _ hord
  have h2 : (StdMap.index 0 (StdMap.index 0 dist target).2 target).1 =
      StdMap.read 0 dist target := by
    show (StdMap.index 0 (StdMap.update 0 id dist target) target).1 = _
    rw [StdMap.index_fst 0 _ target ho1]
    simp [StdMap.read, StdMap.find_update_self 0 id dist target hord]
  unfold finalCheck
  simp only [h1, h2]

/-- When the loop has ended with an empty queue, the value read for a node is at most
the weight of every path from the source to it. -/
theorem walk_lower_bound (mem : EdgePtr → Edge) (g : Graph) (source u0 : NodePtr) (d0 : ℚ)
    (hW : ∀ p ∈ g.edgeSet, (mem p).isWeighted = some true)
    (hN : ∀ p ∈ g.edgeSet, 0 ≤ (mem p).getWeight)
    (dist : StdMap ℚ) (hinv : DijkstraInv mem g source u0 d0 [] dist [])
    (v : NodePtr) (W : ℚ) (hwalk : Walk mem g source v W) :
    StdMap.read 0 dist v ≤ W := by
  have hT := noUntyped_of_weighted mem g hW
  have hleINF : ∀ z, StdMap.read 0 dist z ≤ INF_DOUBLE := by
    intro z
    cases hc : StdMap.find dist z with
    | none =>
      simp only [StdMap.read, hc, Option.getD_none]
      exact le_of_lt INF_DOUBLE_pos
    | some x =>
      rw [StdMap.read_of_find 0 _ _ _ hc]
      exact (hinv.values z x hc).2.1
  induction hwalk with
  | nil => exact hinv.source_zero
  | @step u v2 d w hw hs ih =>
    obtain ⟨l, elem, hl, hel, hev, hew⟩ := adj_of_step mem g hT u v2 w hs
    have hwn : 0 ≤ w := by
      obtain ⟨p, hp, hpw, _⟩ := hs
      rw [← hpw]
      exact hN p hp
    have hkey := hinv.keys u (by rw [hl]; rfl)
    obtain ⟨xu, hxu⟩ := Option.isSome_iff_exists.mp hkey
    have hru : StdMap.read 0 dist u = xu := StdMap.read_of_find 0 _ _ _ hxu
    rw [hru] at ih
    by_cases hlt : xu < INF_DOUBLE
    · rcases hinv.relaxed u xu l hxu hlt hl elem hel with h | h | ⟨_, _, h3⟩
      · exact absurd h (List.not_mem_nil _)
      · rw [hev, hew] at h
        linarith
      · exact absurd h3 (List.not_mem_nil _)
    · have := hleINF v2
      have hge : INF_DOUBLE ≤ xu := not_lt.mp hlt
      linarith

/-- The run of `dijkstra` on a graph of weighted edges with non-negative weights, from
a source that is an adjacency key: the loop ends, and the result is read from a
distance map whose values are lower bounds of the path weights, are path weights
themselves when they are stored for a key and are below `INF_DOUBLE`, and are 0 for
the nodes that are not keys. -/
theorem dijkstra_run (mem : EdgePtr → Edge) (g : Graph) (source : NodePtr)
    (hW : ∀ p ∈ g.edgeSet, (mem p).isWeighted = some true)
    (hN : ∀ p ∈ g.edgeSet, 0 ≤ (mem p).getWeight)
    (hsrc : (StdMap.find (g.getAdjMatrix mem) source).isSome = true) :
    ∃ (fuel0 : Nat) (dist : StdMap ℚ),
      (∀ (fuel : Nat) (target : NodePtr), fuel0 ≤ fuel →
        dijkstra mem g fuel source target = some (.returned
          (if StdMap.read 0 dist target ≠ INF_DOUBLE then
            { success := true, errorMessage := "", result := StdMap.read 0 dist target }
          else
            { success := false, errorMessage := ERR_DIJ_TARGET_NODE_NOT_REACHABLE,
              result := -1 }))) ∧
      (∀ v W, Walk mem g source v W → StdMap.read 0 dist v ≤ W) ∧
      (∀ v, StdMap.find (g.getAdjMatrix mem) v ≠ none → StdMap.read 0 dist v < INF_DOUBLE →
        Walk mem g source v (StdMap.read 0 dist v)) ∧
      (∀ v, StdMap.find (g.getAdjMatrix mem) v = none → StdMap.read 0 dist v = 0) ∧
      (∀ v, StdMap.read 0 dist v ≤ INF_DOUBLE) := by
  have hinit := inv_init mem g source hsrc
  have hfuel : loopMeasure mem g (initDist (g.getAdjMatrix mem) source) [((0 : ℚ), source)] ≤
      ((⌈loopMeasure mem g (initDist (g.getAdjMatrix mem) source) [((0 : ℚ), source)]⌉₊ : Nat) : ℚ) :=
    Nat.le_ceil _
  refine ⟨⌈loopMeasure mem g (initDist (g.getAdjMatrix mem) source) [((0 : ℚ), source)]⌉₊, ?_⟩
  obtain ⟨dist, u2, d2, hloop, hinv⟩ :=
    dijkstraLoop_finishes mem g source hW hN _ _ _ _ _ hinit hfuel
  refine ⟨dist, ?_, ?_, ?_, ?_, ?_⟩
  · intro fuel target hge
    obtain ⟨k, rfl⟩ : ∃ k, fuel =
        ⌈loopMeasure mem g (initDist (g.getAdjMatrix mem) source) [((0 : ℚ), source)]⌉₊ + k :=
      ⟨fuel - ⌈loopMeasure mem g (initDist (g.getAdjMatrix mem) source)
        [((0 : ℚ), source)]⌉₊, by omega⟩
    have hloop2 := dijkstraLoop_fuel_mono mem (g.getAdjMatrix mem) k _ _ _ _ hloop
    unfold dijkstra
    simp only [hloop2]
    rw [finalCheck_spec dist target hinv.ordered]
  · exact fun v W hw => walk_lower_bound mem g source u2 d2 hW hN dist hinv v W hw
  · intro v hkey hlt
    have hk : (StdMap.find (g.getAdjMatrix mem) v).isSome = true := by
      cases hc : StdMap.find (g.getAdjMatrix mem) v with
      | none => exact absurd hc hkey
      | some l => rfl
    obtain ⟨x, hx⟩ := Option.isSome_iff_exists.mp (hinv.keys v hk)
    rw [StdMap.read_of_find 0 _ _ _ hx] at hlt ⊢
    exact (hinv.values v x hx).2.2.2.2 hlt hkey
  · intro v hnone
    cases hc : StdMap.find dist v with
    | none => simp [StdMap.read, hc]
    | some x =>
      rw [StdMap.read_of_find 0 _ _ _ hc]
      exact (hinv.values v x hc).2.2.2.1 hnone
  · intro v
    cases hc : StdMap.find dist v with
    | none =>
      simp only [StdMap.read, hc, Option.getD_none]
      exact le_of_lt INF_DOUBLE_pos
    | some x =>
      rw [StdMap.read_of_find 0 _ _ _ hc]
      exact (hinv.values v x hc).2.1

/-- A relaxation whose machine sum is the exact sum is the relaxation with exact
sums. -/
theorem relaxWith_eq (fadd : ℚ → ℚ → ℚ) (currentDist w : ℚ) (nodeTo : NodePtr)
    (dist : StdMap ℚ) (pq : PriorityQueue) (h : fadd currentDist w = currentDist + w) :
    relaxWith fadd currentDist w nodeTo dist pq = relax currentDist w nodeTo dist pq := by
  unfold relaxWith relax
  rw [h]

/-- A `for` loop none of whose sums is rounded is the `for` loop with exact sums. -/
theorem relaxAllWith_eq (fadd : ℚ → ℚ → ℚ) (mem : EdgePtr → Edge) (currentDist : ℚ) :
    ∀ (l : List (NodePtr × EdgePtr)) (dist : StdMap ℚ) (pq : PriorityQueue),
      (∀ elem ∈ l,
        fadd currentDist (mem elem.2).getWeight = currentDist + (mem elem.2).getWeight) →
      relaxAllWith fadd mem currentDist l dist pq = relaxAll mem currentDist l dist pq := by
  intro l
  induction l with
  | nil =>
    intro dist pq _
    simp only [relaxAllWith, relaxAll]
  | cons elem rest ih =>
    intro dist pq h
    have h0 := h elem (List.mem_cons_self _ _)
    have hrest : ∀ e ∈ rest,
        fadd currentDist (mem e.2).getWeight = currentDist + (mem e.2).getWeight :=
      fun e he => h e (List.mem_cons_of_mem _ he)
    simp only [relaxAllWith, relaxAll]
    rw [relaxWith_eq fadd currentDist _ elem.1 dist pq h0]
    rw [ih _ _ hrest]

/-- The run on the single edge A–B of weight `INF_DOUBLE` with the addition of the
machine: it forms the sum `0 + INF_DOUBLE` only, which is a `double`, and with every
addition that is exact on it `dijkstra(A, B)` returns "Target Node not Reachable". -/
theorem dijkstraWith_weight_at_infinity (fadd : ℚ → ℚ → ℚ)
    (h : fadd 0 INF_DOUBLE = 0 + INF_DOUBLE) :
    dijkstraWith fadd hugeMem hugeGraph 1 10 20 =
      some (.returned { success := false, errorMessage := "Target Node not Reachable",
                        result := -1 }) := by
  have ha : StdMap.find (hugeGraph.getAdjMatrix hugeMem) 10 = some [(20, 1000)] := by decide!
  have hw : (hugeMem 1000).getWeight = INF_DOUBLE := rfl
  have hrel : relaxAllWith fadd hugeMem 0 [(20, 1000)]
      (initDist (hugeGraph.getAdjMatrix hugeMem) 10) [] =
      relaxAll hugeMem 0 [(20, 1000)] (initDist (hugeGraph.getAdjMatrix hugeMem) 10) [] := by
    apply relaxAllWith_eq
    intro elem he
    rw [List.mem_singleton] at he
    subst he
    rw [hw]
    exact h
  have hex : dijkstra hugeMem hugeGraph 1 10 20 =
      some (.returned { success := false, errorMessage := "Target Node not Reachable",
                        result := -1 }) := by decide!
  rw [← hex]
  unfold dijkstraWith dijkstra
  simp only [dijkstraLoopWith, dijkstraLoop, ha, hrel]
  cases hr : relaxAll hugeMem 0 [(20, 1000)] (initDist (hugeGraph.getAdjMatrix hugeMem) 10) [] with
  | inl res => rfl
  | inr s =>
    simp only
    cases s.2 with
    | nil => simp only [dijkstraLoopWith, dijkstraLoop]
    | cons t q => simp only [dijkstraLoopWith, dijkstraLoop]

/-- The value the run of the instance above returns: the distance 1. -/
theorem dijkstraWith_shortest_path_value :
    dijkstraWith addExactTo2p53 isolatedMem isolatedGraph 2 10 20 =
      some (.returned { success := true, errorMessage := "", result := 1 }) := by
  decide!

/-- C22.  On a graph of weighted edges with non-negative weights, for a source that is
a key of the adjacency matrix and a target that is not, `dijkstra` terminates and
returns `success = true`, an empty message and `result = 0`, whether or not a path
leads to the target. -/
theorem dijkstra_target_not_key (mem : EdgePtr → Edge) (g : Graph) (source target : NodePtr)
    (hW : ∀ p ∈ g.edgeSet, (mem p).isWeighted = some true)
    (hN : ∀ p ∈ g.edgeSet, 0 ≤ (mem p).getWeight)
    (hsrc : (StdMap.find (g.getAdjMatrix mem) source).isSome = true)
    (htgt : StdMap.find (g.getAdjMatrix mem) target = none) :
    ∃ fuel0 : Nat, ∀ fuel : Nat, fuel0 ≤ fuel →
      dijkstra mem g fuel source target =
        some (.returned { success := true, errorMessage := "", result := 0 }) := by
  obtain ⟨fuel0, dist, hrun, _, _, hzero, _⟩ := dijkstra_run mem g source hW hN hsrc
  refine ⟨fuel0, fun fuel hge => ?_⟩
  rw [hrun fuel target hge, hzero target htgt]
  have hne : (0 : ℚ) ≠ INF_DOUBLE := ne_of_lt INF_DOUBLE_pos
  rw [if_pos hne]

/-- C22, instance: in the graph A→B, B→C the node C is no adjacency key, and
`dijkstra(A, C)` returns success with result 0 although the path A, B, C has weight 3. -/
theorem dijkstra_target_not_key_witness :
    Walk chainMem chainGraph 10 30 (0 + 1 + 2) ∧
    ∃ fuel0 : Nat, ∀ fuel : Nat, fuel0 ≤ fuel →
      dijkstra chainMem chainGraph fuel 10 30 =
        some (.returned { success := true, errorMessage := "", result := 0 }) :=
  ⟨@Walk.step chainMem chainGraph 10 20 30 (0 + 1) 2
      (@Walk.step chainMem chainGraph 10 10 20 0 1 Walk.nil ⟨1000, by decide, rfl, by decide⟩)
      ⟨2000, by decide, rfl, by decide⟩,
    dijkstra_target_not_key chainMem chainGraph 10 30 (by decide) (by decide!) (by decide)
      (by decide)⟩

end CXXGRAPH
